import Mathlib

/-!
logspout-gelf: the GELF adapter (`gelf.go`)

A shallow embedding of `hostnameFromRancherMetadata`, `GelfMessage.getExtraFields`
and `GelfAdapter.Stream`, followed by the properties established about them.

Conventions of the embedding

* A Go `string` is its sequence of bytes (`GoString`); `s[i:]` is `List.drop`,
  `s[0:j]` is `List.take`, `len` is `List.length`.  A slice expression whose
  bounds are out of range is a run-time panic, which is an explicit outcome here.
* A Go `map[string]T` that is only read and ranged over (the container labels) is
  the list of its entries in the order the `range` statement visits them; Go leaves
  that order unspecified, so statements about "whatever the order" quantify over
  permutations of the list.
* The map that the code writes (`extra`) is an association list with one entry per key.
* What the code obtains from its surroundings (the package variable `hostname`,
  `os.Hostname`, the standard library) is gathered in `Env`.
* A record comes with its container metadata attached: the pointers `Message.Container`
  and `Container.Config` are not nil.  `Container.Node` may be nil.
* The marshalled `extra` is the JSON object it denotes, with the strings as
  `json.Marshal` writes them: valid UTF-8 kept, any other byte replaced by U+FFFD.
-/

namespace Gelf

/-! ## Strings -/

/-- A Go string: a finite sequence of bytes. -/
abbrev GoString := List Nat

/-- The bytes of an ASCII literal. -/
def ascii (s : String) : GoString := s.toList.map Char.toNat

/-- ASCII lower-casing of one byte: `A`..`Z` move to `a`..`z`, every other byte stays. -/
def asciiLower (b : Nat) : Nat := if 65 ≤ b ∧ b ≤ 90 then b + 32 else b

/-- Go `strings.ToLower`.  On a string of ASCII bytes it lower-cases byte by byte; a
string that holds a byte `≥ 0x80` goes through `strings.Map(unicode.ToLower, s)`,
which is the standard library and is passed in as `slow`. -/
def stringsToLower (slow : GoString → GoString) (s : GoString) : GoString :=
  if s.all (fun b => decide (b < 128)) then s.map asciiLower else slow s

/-- Go `strings.Join(elems, sep)`. -/
def stringsJoin (elems : List GoString) (sep : GoString) : GoString :=
  sep.intercalate elems

/-! ## Data model -/

/-- A `time.Time`, as the instant it denotes: nanoseconds since the Unix epoch. -/
structure Time where
  nanos : Int
deriving DecidableEq, Repr

/-- The `docker.SwarmNode` behind `Container.Node`. -/
structure SwarmNode where
  Name : GoString
deriving DecidableEq, Repr

/-- The `docker.Config` behind `Container.Config`; `Labels` lists the entries of the
label map in the order a `range` over it visits them. -/
structure Config where
  Image : GoString
  Cmd : List GoString
  Labels : List (GoString × GoString)
deriving DecidableEq, Repr

/-- The `docker.Container` attached to a record; `Node` is `none` for a nil pointer. -/
structure Container where
  ID : GoString
  Name : GoString
  Image : GoString
  Created : Time
  Config : Config
  Node : Option SwarmNode
deriving DecidableEq, Repr

/-- A `router.Message`: one log record with its container metadata attached. -/
structure RouterMessage where
  Container : Container
  Source : GoString
  Data : GoString
  Time : Time
deriving DecidableEq, Repr

/-- A value stored in `extra`, a `map[string]interface{}`: the code stores strings and
one `time.Time`. -/
inductive Value where
  | str (s : GoString)
  | time (t : Time)
deriving DecidableEq, Repr

/-- The map `extra`: one entry per key. -/
abbrev FieldMap := List (GoString × Value)

/-- The Go expression `v, ok := m[k]`: the value stored under `k`, `none` when the key is
absent. -/
def mapGet (m : FieldMap) (k : GoString) : Option Value :=
  match m with
  | [] => none
  | (k1, v) :: rest => if k1 = k then some v else mapGet rest k

/-- The Go statement `m[k] = v`: the entry for `k` is replaced or created. -/
def mapSet (m : FieldMap) (k : GoString) (v : Value) : FieldMap :=
  (k, v) :: m.filter (fun p => !decide (p.1 = k))

/-- The keys of the map. -/
def mapKeys (m : FieldMap) : List GoString := m.map Prod.fst

/-- The Go expression `labels[k]` on a `map[string]string`: the value stored under `k`,
the empty string when the key is absent. -/
def labelsGet (labels : List (GoString × GoString)) (k : GoString) : GoString :=
  match labels with
  | [] => []
  | (k1, v) :: rest => if k1 = k then v else labelsGet rest k

/-- What the code reads from outside the package's functions. -/
structure Env where
  /-- the package variable `hostname`, set once by `init` -/
  hostname : GoString
  /-- the outcome of `os.Hostname()`: `none` when it returns an error -/
  osHostname : Option GoString
  /-- the non-ASCII path of `strings.ToLower` -/
  slowLower : GoString → GoString
  /-- whether `Time.MarshalJSON` succeeds on a value (it refuses years outside 0..9999) -/
  timeMarshals : Time → Bool

/-- How a call ends: a normal return without error, a normal return with a non-nil
error, or a run-time panic. -/
inductive Outcome (α : Type) where
  | ok (a : α)
  | error
  | panic
deriving DecidableEq, Repr

/-! ## `encoding/json` -/

/-- The marshalled `extra`, as the JSON object it denotes: its members in the order the
encoder writes them, which is by increasing key of the map. -/
abbrev RawJSON := List (GoString × Value)

/-- Whether `json.Marshal` accepts a value: strings always, a time when its
`MarshalJSON` succeeds. -/
def valueMarshals (env : Env) : Value → Bool
  | .str _ => true
  | .time t => env.timeMarshals t

/-- For a lead byte of a multi-byte UTF-8 sequence: the size of the sequence and the
range accepted for its second byte, as in the tables `first` and `acceptRanges` of Go's
`unicode/utf8`; `none` for a byte that cannot start a sequence. -/
def utf8Lead (b : Nat) : Option (Nat × Nat × Nat) :=
  if 0xC2 ≤ b ∧ b ≤ 0xDF then some (2, 0x80, 0xBF)
  else if b = 0xE0 then some (3, 0xA0, 0xBF)
  else if b = 0xED then some (3, 0x80, 0x9F)
  else if 0xE1 ≤ b ∧ b ≤ 0xEF then some (3, 0x80, 0xBF)
  else if b = 0xF0 then some (4, 0x90, 0xBF)
  else if 0xF1 ≤ b ∧ b ≤ 0xF3 then some (4, 0x80, 0xBF)
  else if b = 0xF4 then some (4, 0x80, 0x8F)
  else none

/-- What `utf8.DecodeRuneInString` reports at the head of a non-empty `s`: the size of
the UTF-8 sequence found there, `0` when there is none (Go then returns `RuneError`
with size 1). -/
def runeSize (s : GoString) : Nat :=
  match s with
  | [] => 0
  | b0 :: rest =>
    if b0 < 0x80 then 1
    else
      match utf8Lead b0 with
      | none => 0
      | some (size, lo, hi) =>
        match rest with
        | [] => 0
        | b1 :: more =>
          if lo ≤ b1 ∧ b1 ≤ hi ∧ size - 2 ≤ more.length ∧
              (more.take (size - 2)).all (fun b => decide (0x80 ≤ b ∧ b ≤ 0xBF)) then size
          else 0

/-- The loop of the string encoder of `encoding/json`, on the string a JSON text
denotes: a valid UTF-8 sequence is kept, every other byte becomes U+FFFD (the bytes
`EF BF BD`).  `fuel` bounds the number of steps. -/
def jsonStringFuel : Nat → GoString → GoString
  | 0, _ => []
  | _ + 1, [] => []
  | fuel + 1, b :: rest =>
    let size := runeSize (b :: rest)
    if size = 0 then 0xEF :: 0xBF :: 0xBD :: jsonStringFuel fuel rest
    else (b :: rest).take size ++ jsonStringFuel fuel ((b :: rest).drop size)

/-- The string that `json.Marshal` writes for the Go string `s`: `s` itself when it is
valid UTF-8, otherwise `s` with each offending byte replaced by U+FFFD. -/
def jsonString (s : GoString) : GoString := jsonStringFuel s.length s

/-- Go `utf8.ValidString`: the string is a run of valid UTF-8 sequences.  `fuel` bounds
the number of sequences. -/
def utf8ValidFuel : Nat → GoString → Bool
  | 0, s => s.isEmpty
  | _ + 1, [] => true
  | fuel + 1, b :: rest =>
    decide (runeSize (b :: rest) ≠ 0) &&
      utf8ValidFuel fuel ((b :: rest).drop (runeSize (b :: rest)))

/-- Whether `s` is valid UTF-8. -/
def utf8Valid (s : GoString) : Bool := utf8ValidFuel s.length s

/-- The value that `json.Marshal` writes for a value of `extra`. -/
def jsonValue : Value → Value
  | .str s => .str (jsonString s)
  | .time t => .time t

/-- Go `json.Marshal` on `extra`: an error when a member cannot be marshalled, otherwise
the members sorted by the keys of the map, keys and string values written as
`jsonString` tells. -/
def jsonMarshal (env : Env) (m : FieldMap) : Option RawJSON :=
  if m.all (fun p => valueMarshals env p.2) then
    some (((mapKeys m).insertionSort (fun a b => a ≤ b)).filterMap
      (fun k => (mapGet m k).map (fun v => (jsonString k, jsonValue v))))
  else none

/-! ## `getExtraFields` -/

/-- The test of the label loop: `len(name) > 5 && strings.ToLower(name[0:5]) == "gelf_"`. -/
def isGelfLabel (env : Env) (name : GoString) : Bool :=
  decide (5 < name.length) && decide (stringsToLower env.slowLower (name.take 5) = ascii "gelf_")

/-- One iteration of `for name, label := range m.Container.Config.Labels`. -/
def labelStep (env : Env) (extra : FieldMap) (p : GoString × GoString) : FieldMap :=
  if isGelfLabel env p.1 then mapSet extra (p.1.drop 4) (.str p.2) else extra

/-- The composite literal that initialises `extra`, given `m.Container.Name[1:]`; its
ten keys are distinct constants. -/
def initialExtra (env : Env) (m : RouterMessage) (nameTail : GoString) : FieldMap :=
  let logspoutInstance := env.osHostname.getD []
  [ (ascii "_container_id", .str m.Container.ID),
    (ascii "_container_name", .str nameTail),
    (ascii "_image_id", .str m.Container.Image),
    (ascii "_image_name", .str m.Container.Config.Image),
    (ascii "_command", .str (stringsJoin m.Container.Config.Cmd (ascii " "))),
    (ascii "_created", .time m.Container.Created),
    (ascii "_rancher_stack_service",
      .str (labelsGet m.Container.Config.Labels (ascii "io.rancher.stack_service.name"))),
    (ascii "_rancher_host", .str env.hostname),
    (ascii "_logspout_instance", .str logspoutInstance),
    (ascii "_logspout_source", .str m.Source) ]

/-- The map `extra` as `getExtraFields` hands it to `json.Marshal`; `none` when building
it panics, which `m.Container.Name[1:]` does on an empty name. -/
def extraFields (env : Env) (m : RouterMessage) : Option FieldMap :=
  match m.Container.Name with
  | [] => none
  | _ :: nameTail =>
    let extra := initialExtra env m nameTail
    let extra := m.Container.Config.Labels.foldl (labelStep env) extra
    match m.Container.Node with
    | some swarmnode => some (mapSet extra (ascii "_swarm_node") (.str swarmnode.Name))
    | none => some extra

/-- The method `GelfMessage.getExtraFields`. -/
def getExtraFields (env : Env) (m : RouterMessage) : Outcome RawJSON :=
  match extraFields env m with
  | none => .panic
  | some extra =>
    match jsonMarshal env extra with
    | none => .error
    | some rawExtra => .ok rawExtra

/-! ## `float64` -/

/-- The number of halvings that bring `n` below 2, which is `⌊log₂ n⌋` for `n > 0`;
`fuel` bounds the recursion and `n` itself always suffices. -/
def log2Fuel : Nat → Nat → Nat
  | 0, _ => 0
  | fuel + 1, n => if n < 2 then 0 else log2Fuel fuel (n / 2) + 1

/-- The position of the highest set bit of `n`. -/
def floorLog2 (n : Nat) : Nat := log2Fuel n n

/-- The integer nearest to `p / q`, a tie going to the even neighbour. -/
def roundHalfEven (p q : Nat) : Nat :=
  let d := p / q
  let r := p % q
  if 2 * r < q then d else if q < 2 * r then d + 1 else if d % 2 = 0 then d else d + 1

/-- A finite `float64`: the number `± mant * 2 ^ exp`. -/
structure Float64 where
  neg : Bool
  mant : Nat
  exp : Int
deriving DecidableEq, Repr

/-- The rational number a finite `float64` stands for. -/
def Float64.toRat (x : Float64) : ℚ :=
  (if x.neg then -1 else 1) * (x.mant : ℚ) * (2 : ℚ) ^ x.exp

/-- IEEE 754 round-to-nearest-even of the positive quotient `a / b` to 53 significant
bits: mantissa and exponent of the result.  The binade `E = ⌊log₂ (a / b)⌋` is found from
the bit lengths of `a` and `b`, the unit in the last place is `2 ^ (E - 52)`.  Exponent
range is not modelled: the quotients formed below lie between `2 ^ (-10)` and `2 ^ 44`. -/
def f64Nearest (a b : Nat) : Nat × Int :=
  if a = 0 then (0, 0) else
  let k := floorLog2 a
  let l := floorLog2 b
  let E : Int := if b * 2 ^ k ≤ a * 2 ^ l then (k : Int) - l else (k : Int) - l - 1
  let e : Int := E - 52
  if 0 ≤ e then (roundHalfEven a (b * 2 ^ e.toNat), e)
  else (roundHalfEven (a * 2 ^ (-e).toNat) b, e)

/-- The conversion `float64(i)` of an integer. -/
def f64OfInt (i : Int) : Float64 :=
  let r := f64Nearest i.natAbs 1
  { neg := decide (i < 0), mant := r.1, exp := r.2 }

/-- The `float64` quotient `x / y` for `y ≠ 0`: the exact quotient
`(x.mant / y.mant) * 2 ^ (x.exp - y.exp)`, correctly rounded. -/
def f64Div (x y : Float64) : Float64 :=
  let d := x.exp - y.exp
  let r := if 0 ≤ d then f64Nearest (x.mant * 2 ^ d.toNat) y.mant
           else f64Nearest x.mant (y.mant * 2 ^ (-d).toNat)
  { neg := xor x.neg y.neg, mant := r.1, exp := r.2 }

/-- The constant `1000.0`. -/
def f64Thousand : Float64 := { neg := false, mant := 1000, exp := 0 }

/-- Two-complement wrap-around of a mathematical integer into `int64`. -/
def wrapInt64 (x : Int) : Int := (x + 2 ^ 63) % 2 ^ 64 - 2 ^ 63

/-- The method `Time.UnixNano`: the instant in nanoseconds, as an `int64`. -/
def Time.UnixNano (t : Time) : Int := wrapInt64 t.nanos

/-- The expression `float64(m.Message.Time.UnixNano()/int64(time.Millisecond)) / 1000.0`;
`time.Millisecond` is `1000000` and `/` on `int64` truncates toward zero. -/
def timeUnix (t : Time) : Float64 :=
  f64Div (f64OfInt (Int.tdiv t.UnixNano 1000000)) f64Thousand

/-! ## `Stream` -/

/-- The severity `gelf.LOG_ERR`. -/
def LOG_ERR : Int := 3

/-- The severity `gelf.LOG_INFO`. -/
def LOG_INFO : Int := 6

/-- The fields of `gelf.Message` that `Stream` sets. -/
structure Message where
  Version : GoString
  Host : GoString
  Short : GoString
  TimeUnix : Float64
  Level : Int
  RawExtra : RawJSON
deriving DecidableEq, Repr

/-- The body of the loop of `Stream` up to the construction of `msg`: the message built
for one record, `error` when `getExtraFields` returns an error (the record is logged and
skipped), `panic` when it panics. -/
def mapRecord (env : Env) (m : RouterMessage) : Outcome Message :=
  let level := if m.Source = ascii "stderr" then LOG_ERR else LOG_INFO
  match getExtraFields env m with
  | .panic => .panic
  | .error => .error
  | .ok extra =>
    let host := labelsGet m.Container.Config.Labels (ascii "io.rancher.container.name")
    let host := if host.length = 0 then env.hostname else host
    .ok { Version := ascii "1.1", Host := host, Short := m.Data,
          TimeUnix := timeUnix m.Time, Level := level, RawExtra := extra }

/-- What a run of `Stream` leaves behind: the messages handed to `WriteMessage`, oldest
first, the number of lines written with `log.Println`, and whether the run ended in a
panic instead of returning when the channel was closed. -/
structure StreamTrace where
  sent : List Message
  logged : Nat
  panicked : Bool
deriving DecidableEq, Repr

/-- The loop `for message := range logstream` over the records still to come.
`writeFails i` tells whether the call number `i` of `a.writer.WriteMessage` returns an
error. -/
def streamLoop (env : Env) (writeFails : Nat → Bool) :
    List RouterMessage → StreamTrace → StreamTrace
  | [], tr => tr
  | m :: rest, tr =>
    match mapRecord env m with
    | .panic => { tr with panicked := true }
    | .error => streamLoop env writeFails rest { tr with logged := tr.logged + 1 }
    | .ok msg =>
      let failed := writeFails tr.sent.length
      streamLoop env writeFails rest
        { tr with sent := tr.sent ++ [msg],
                  logged := if failed then tr.logged + 1 else tr.logged }

/-- The method `GelfAdapter.Stream` run on a channel that delivers `records` and is
then closed. -/
def Stream (env : Env) (writeFails : Nat → Bool) (records : List RouterMessage) :
    StreamTrace :=
  streamLoop env writeFails records { sent := [], logged := 0, panicked := false }

/-! ## `hostnameFromRancherMetadata` -/

/-- What `http.Get` returns when it does not fail: the status code, and what
`ioutil.ReadAll(res.Body)` then yields, the bytes read and whether it reports an error. -/
structure HttpResponse where
  StatusCode : Nat
  body : GoString
  readFails : Bool
deriving DecidableEq, Repr

/-- The function `hostnameFromRancherMetadata`: `get` is the outcome of the `http.Get`
(`none` for an error), `osHostname` that of `os.Hostname()`.  The result is the pair
`(hostname, err != nil)`. -/
def hostnameFromRancherMetadata (get : Option HttpResponse) (osHostname : Option GoString) :
    GoString × Bool :=
  let hostname : GoString :=
    match get with
    | some res => if res.readFails then [] else res.body
    | none => []
  let err : Bool := get.isNone
  if hostname.length = 0 then
    match osHostname with
    | some name => (name, false)
    | none => ([], true)
  else (hostname, err)

/-- The assignment `hostname, _ = hostnameFromRancherMetadata()` of `init`. -/
def initHostname (get : Option HttpResponse) (osHostname : Option GoString) : GoString :=
  (hostnameFromRancherMetadata get osHostname).1

/-! ## Sample values -/

/-- An environment: identity `rancher-1`, OS hostname `node-7`. -/
def sampleEnv : Env :=
  { hostname := ascii "rancher-1", osHostname := some (ascii "node-7"),
    slowLower := fun s => s, timeMarshals := fun _ => true }

/-- A container named `/web-1` with the labels `gelf_foo=bar` and
`io.rancher.container.name=web-1`. -/
def sampleContainer : Container :=
  { ID := ascii "4f2c", Name := ascii "/web-1", Image := ascii "sha256:9e",
    Created := { nanos := 1400000000000000000 },
    Config := { Image := ascii "nginx:1.13", Cmd := [ascii "nginx", ascii "-g", ascii "daemon off;"],
                Labels := [(ascii "gelf_foo", ascii "bar"),
                           (ascii "io.rancher.container.name", ascii "web-1")] },
    Node := none }

/-- A record of that container, written to stdout at 1,500,000,000.123456789 s. -/
def sampleRecord : RouterMessage :=
  { Container := sampleContainer, Source := ascii "stdout", Data := ascii "GET / 200",
    Time := { nanos := 1500000000123456789 } }

/-- The sample record with an empty container name. -/
def emptyNameRecord : RouterMessage :=
  { sampleRecord with Container := { sampleContainer with Name := [] } }

/-- The object that `getExtraFields` returns for `sampleRecord` under `sampleEnv`. -/
def sampleRaw : RawJSON :=
  [ (ascii "_command", .str (ascii "nginx -g daemon off;")),
    (ascii "_container_id", .str (ascii "4f2c")),
    (ascii "_container_name", .str (ascii "web-1")),
    (ascii "_created", .time { nanos := 1400000000000000000 }),
    (ascii "_foo", .str (ascii "bar")),
    (ascii "_image_id", .str (ascii "sha256:9e")),
    (ascii "_image_name", .str (ascii "nginx:1.13")),
    (ascii "_logspout_instance", .str (ascii "node-7")),
    (ascii "_logspout_source", .str (ascii "stdout")),
    (ascii "_rancher_host", .str (ascii "rancher-1")),
    (ascii "_rancher_stack_service", .str []) ]

/-- The message `Stream` builds for `sampleRecord` under `sampleEnv`. -/
def sampleMessage : Message :=
  { Version := ascii "1.1", Host := ascii "web-1", Short := ascii "GET / 200",
    TimeUnix := { neg := false, mant := 6291456000515899, exp := -22 },
    Level := LOG_INFO, RawExtra := sampleRaw }

/-- The value that the object returned by `getExtraFields` holds under `key`: `none`
when no object is returned, `some none` when the object has no member `key`. -/
def returnedField (env : Env) (m : RouterMessage) (key : GoString) : Option (Option Value) :=
  match getExtraFields env m with
  | .ok raw => some (mapGet raw key)
  | _ => none

/-- The message of a record whose field extraction succeeds, `none` for a record that
`Stream` skips. -/
def okMessage (env : Env) (m : RouterMessage) : Option Message :=
  match mapRecord env m with
  | .ok msg => some msg
  | _ => none

/-- A reply of the metadata endpoint with status 404 and an error page as body. -/
def notFoundResponse : HttpResponse :=
  { StatusCode := 404, body := ascii "404 page not found", readFails := false }

/-- The byte `_`. -/
def underscore : Nat := 95

/-- The byte `/`, the separator that opens a Docker container name. -/
def slash : Nat := 47

/-- A key starts with `gelf_` when case is ignored: its first five bytes, lower-cased
as ASCII, are `gelf_`. -/
def startsWithGelfNoCase (k : GoString) : Prop :=
  (k.take 5).map asciiLower = ascii "gelf_"

instance (k : GoString) : Decidable (startsWithGelfNoCase k) := by
  unfold startsWithGelfNoCase
  infer_instance

/-- The ten keys of the composite literal that initialises `extra`. -/
def requiredKeys : List GoString :=
  [ ascii "_container_id", ascii "_container_name", ascii "_image_id", ascii "_image_name",
    ascii "_command", ascii "_created", ascii "_rancher_stack_service", ascii "_rancher_host",
    ascii "_logspout_instance", ascii "_logspout_source" ]

/-- The record `m` with `labels` as its label map, or as the order in which a `range`
visits its label map. -/
def relabel (m : RouterMessage) (labels : List (GoString × GoString)) : RouterMessage :=
  { m with
    Container := { m.Container with
      Config := { m.Container.Config with Labels := labels } } }

/-- The sample record with another label map. -/
def withLabels (labels : List (GoString × GoString)) : RouterMessage :=
  relabel sampleRecord labels

/-- Two labels whose keys differ only in the case of the tag. -/
def clashLabels : List (GoString × GoString) :=
  [(ascii "gelf_x", ascii "a"), (ascii "GELF_x", ascii "b")]

/-- Labels whose keys are `gelf_` itself and two keys that differ only in the case of
the tag. -/
def tagLabels : List (GoString × GoString) :=
  [(ascii "gelf_", ascii "bar"), (ascii "gelf_x", ascii "a"), (ascii "GELF_x", ascii "b")]

/-- A label that addresses a key of the composite literal. -/
def spoofLabels : List (GoString × GoString) :=
  [(ascii "gelf_container_id", ascii "spoofed")]

/-! ## Facts about the map operations -/

theorem mapGet_filter_ne (m : FieldMap) (k k2 : GoString) (h : k ≠ k2) :
    mapGet (m.filter (fun p => !decide (p.1 = k))) k2 = mapGet m k2 := by
  induction m with
  | nil => rfl
  | cons p rest ih =>
    obtain ⟨k1, v1⟩ := p
    by_cases h1 : k1 = k
    · subst h1
      simp [List.filter, mapGet, h, ih]
    · simp [List.filter, mapGet, h1, ih]

theorem mapGet_mapSet (m : FieldMap) (k k2 : GoString) (v : Value) :
    mapGet (mapSet m k v) k2 = if k = k2 then some v else mapGet m k2 := by
  unfold mapSet
  by_cases h : k = k2
  · simp [mapGet, h]
  · simp [mapGet, h, mapGet_filter_ne m k k2 h]

theorem labelsGet_of_mem (labels : List (GoString × GoString)) (k v : GoString)
    (hnodup : (labels.map Prod.fst).Nodup) (hmem : (k, v) ∈ labels) :
    labelsGet labels k = v := by
  induction labels with
  | nil => simp at hmem
  | cons p rest ih =>
    obtain ⟨k1, v1⟩ := p
    simp only [List.map_cons, List.nodup_cons] at hnodup
    rcases List.mem_cons.mp hmem with h | h
    · cases h
      simp [labelsGet]
    · have hne : k1 ≠ k := by
        intro hk
        subst hk
        exact hnodup.1 (List.mem_map.mpr ⟨(k1, v), h, rfl⟩)
      simp [labelsGet, hne, ih hnodup.2 h]

theorem labelsGet_of_forall (labels : List (GoString × GoString)) (k : GoString)
    (h : ∀ v, (k, v) ∈ labels → v = []) : labelsGet labels k = [] := by
  induction labels with
  | nil => rfl
  | cons p rest ih =>
    obtain ⟨k1, v1⟩ := p
    by_cases hk : k1 = k
    · subst hk
      simp [labelsGet, h v1 (List.mem_cons_self _ _)]
    · simp only [labelsGet, hk, if_false]
      exact ih (fun v hv => h v (List.mem_cons_of_mem _ hv))

/-! ## Facts about the loop body -/

theorem mapRecord_ok (env : Env) (m : RouterMessage) (msg : Message)
    (h : mapRecord env m = .ok msg) :
    getExtraFields env m = .ok msg.RawExtra ∧
    msg.Version = ascii "1.1" ∧
    msg.Host =
      (if (labelsGet m.Container.Config.Labels (ascii "io.rancher.container.name")).length = 0
        then env.hostname
        else labelsGet m.Container.Config.Labels (ascii "io.rancher.container.name")) ∧
    msg.Short = m.Data ∧
    msg.TimeUnix = timeUnix m.Time ∧
    msg.Level = (if m.Source = ascii "stderr" then LOG_ERR else LOG_INFO) := by
  unfold mapRecord at h
  cases hx : getExtraFields env m with
  | panic => simp [hx] at h
  | error => simp [hx] at h
  | ok extra =>
    simp only [hx] at h
    cases h
    simp

theorem mapRecord_panic_iff (env : Env) (m : RouterMessage) :
    mapRecord env m = .panic ↔ m.Container.Name = [] := by
  unfold mapRecord getExtraFields extraFields
  cases hn : m.Container.Name with
  | nil => simp
  | cons c t =>
    cases hnode : m.Container.Node <;> simp only [] <;>
      split <;> simp_all <;> split at * <;> simp_all

theorem streamLoop_sent (env : Env) (writeFails : Nat → Bool) (records : List RouterMessage)
    (tr : StreamTrace) (hname : ∀ m ∈ records, m.Container.Name ≠ []) :
    (streamLoop env writeFails records tr).sent = tr.sent ++ records.filterMap (okMessage env) ∧
    (streamLoop env writeFails records tr).panicked = tr.panicked := by
  induction records generalizing tr with
  | nil => simp [streamLoop]
  | cons m rest ih =>
    have hrest : ∀ r ∈ rest, r.Container.Name ≠ [] :=
      fun r hr => hname r (List.mem_cons_of_mem _ hr)
    have hm : mapRecord env m ≠ .panic :=
      fun hp => hname m (List.mem_cons_self _ _) ((mapRecord_panic_iff env m).mp hp)
    cases hx : mapRecord env m with
    | panic => exact absurd hx hm
    | error =>
      have h := ih { tr with logged := tr.logged + 1 } hrest
      simpa [streamLoop, okMessage, hx] using h
    | ok msg =>
      have h := ih { tr with sent := tr.sent ++ [msg],
                             logged := if writeFails tr.sent.length then tr.logged + 1
                                       else tr.logged } hrest
      simpa [streamLoop, okMessage, hx] using h

/-- Send isolation on streams that do not panic: when every record has a non-empty
container name, `Stream` returns normally and has handed the writer, in arrival order,
exactly the messages of the records whose field extraction succeeded, whatever calls of
the writer failed. -/
theorem stream_sent_of_names_nonempty (env : Env) (writeFails : Nat → Bool)
    (records : List RouterMessage) (hname : ∀ m ∈ records, m.Container.Name ≠ []) :
    (Stream env writeFails records).sent = records.filterMap (okMessage env) ∧
    (Stream env writeFails records).panicked = false := by
  have h := streamLoop_sent env writeFails records
    { sent := [], logged := 0, panicked := false } hname
  simpa [Stream] using h

/-! ## Facts about the label loop -/

theorem ascii_gelf : ascii "gelf_" = [103, 101, 108, 102, 95] := by decide

theorem all_ascii_of_lower (s : GoString) (h : ∀ b ∈ s.map asciiLower, b < 128) :
    s.all (fun b => decide (b < 128)) = true := by
  rw [List.all_eq_true]
  intro b hb
  have h1 := h (asciiLower b) (List.mem_map.mpr ⟨b, hb, rfl⟩)
  unfold asciiLower at h1
  split at h1 <;> simp <;> omega

theorem isGelfLabel_of_startsWith (env : Env) (k : GoString) (hlen : 5 < k.length)
    (htag : startsWithGelfNoCase k) : isGelfLabel env k = true := by
  unfold startsWithGelfNoCase at htag
  have hascii : (k.take 5).all (fun b => decide (b < 128)) = true := by
    apply all_ascii_of_lower
    rw [htag]
    decide
  simp [isGelfLabel, stringsToLower, hascii, htag, hlen]

theorem asciiLower_eq_underscore (b : Nat) (h : asciiLower b = 95) : b = 95 := by
  unfold asciiLower at h
  split at h <;> omega

theorem isGelfLabel_drop (env : Env) (name : GoString)
    (hslow : ∀ s : GoString, (∃ b ∈ s, 128 ≤ b) → env.slowLower s ≠ ascii "gelf_")
    (h : isGelfLabel env name = true) :
    (name.drop 4).head? = some underscore ∧ 2 ≤ (name.drop 4).length := by
  simp only [isGelfLabel, Bool.and_eq_true, decide_eq_true_eq] at h
  obtain ⟨hlen, heq⟩ := h
  match name, hlen, heq with
  | b0 :: b1 :: b2 :: b3 :: b4 :: b5 :: rest, _, heq =>
    refine ⟨?_, by simp⟩
    unfold stringsToLower at heq
    split at heq
    · rw [ascii_gelf] at heq
      have h4 : asciiLower b4 = 95 := by
        simp only [List.take, List.map, List.cons.injEq] at heq
        exact heq.2.2.2.2.1
      simp [underscore, asciiLower_eq_underscore b4 h4]
    · rename_i hna
      exfalso
      apply hslow _ _ heq
      rw [List.all_eq_true] at hna
      push_neg at hna
      obtain ⟨b, hb, hbn⟩ := hna
      exact ⟨b, hb, by simpa using hbn⟩

theorem labelLoop_get_unchanged (env : Env) (labels : List (GoString × GoString))
    (b : FieldMap) (key : GoString)
    (h : ∀ p ∈ labels, isGelfLabel env p.1 = true → p.1.drop 4 ≠ key) :
    mapGet (labels.foldl (labelStep env) b) key = mapGet b key := by
  induction labels generalizing b with
  | nil => rfl
  | cons p rest ih =>
    rw [List.foldl_cons, ih _ (fun q hq => h q (List.mem_cons_of_mem _ hq))]
    unfold labelStep
    split
    · rename_i hp
      rw [mapGet_mapSet, if_neg (h p (List.mem_cons_self _ _) hp)]
    · rfl

theorem labelLoop_get_value (env : Env) (labels : List (GoString × GoString))
    (b : FieldMap) (key v : GoString)
    (hval : ∀ p ∈ labels, isGelfLabel env p.1 = true → p.1.drop 4 = key → p.2 = v)
    (hex : mapGet b key = some (.str v) ∨
      ∃ p ∈ labels, isGelfLabel env p.1 = true ∧ p.1.drop 4 = key) :
    mapGet (labels.foldl (labelStep env) b) key = some (.str v) := by
  induction labels generalizing b with
  | nil =>
    rcases hex with h | ⟨p, hp, _⟩
    · exact h
    · simp at hp
  | cons p rest ih =>
    rw [List.foldl_cons]
    apply ih _ (fun q hq => hval q (List.mem_cons_of_mem _ hq))
    by_cases hp : isGelfLabel env p.1 = true ∧ p.1.drop 4 = key
    · left
      have hv := hval p (List.mem_cons_self _ _) hp.1 hp.2
      simp [labelStep, hp.1, mapGet_mapSet, hp.2, hv]
    · have hstep : mapGet (labelStep env b p) key = mapGet b key := by
        unfold labelStep
        split
        · rename_i hpass
          rw [mapGet_mapSet, if_neg (fun hk => hp ⟨hpass, hk⟩)]
        · rfl
      rcases hex with h | ⟨q, hq, hqpass, hqkey⟩
      · left
        rw [hstep]
        exact h
      · right
        rcases List.mem_cons.mp hq with hqp | hqrest
        · subst hqp
          exact absurd ⟨hqpass, hqkey⟩ hp
        · exact ⟨q, hqrest, hqpass, hqkey⟩

theorem extraFields_some (env : Env) (m : RouterMessage) (extra : FieldMap)
    (h : extraFields env m = some extra) :
    ∃ c nameTail, m.Container.Name = c :: nameTail ∧
      extra =
        match m.Container.Node with
        | some swarmnode =>
          mapSet (m.Container.Config.Labels.foldl (labelStep env) (initialExtra env m nameTail))
            (ascii "_swarm_node") (.str swarmnode.Name)
        | none => m.Container.Config.Labels.foldl (labelStep env) (initialExtra env m nameTail) := by
  unfold extraFields at h
  cases hn : m.Container.Name with
  | nil => simp [hn] at h
  | cons c t =>
    refine ⟨c, t, rfl, ?_⟩
    simp only [hn] at h
    cases hnode : m.Container.Node with
    | none =>
      simp only [hnode] at h
      exact (Option.some.inj h).symm
    | some sn =>
      simp only [hnode] at h
      exact (Option.some.inj h).symm

theorem sampleEnv_slowLower (s : GoString) (h : ∃ b ∈ s, 128 ≤ b) :
    sampleEnv.slowLower s ≠ ascii "gelf_" := by
  obtain ⟨b, hb, hge⟩ := h
  intro heq
  have hs : s = [103, 101, 108, 102, 95] := by
    rw [← ascii_gelf]
    exact heq
  subst hs
  simp at hb
  omega

theorem extra_get_of_untouched (env : Env) (m : RouterMessage) (extra : FieldMap)
    (c : Nat) (nameTail key : GoString) (hname : m.Container.Name = c :: nameTail)
    (hextra : extraFields env m = some extra) (hkey : key ≠ ascii "_swarm_node")
    (hfree : ∀ p ∈ m.Container.Config.Labels, isGelfLabel env p.1 = true → p.1.drop 4 ≠ key) :
    mapGet extra key = mapGet (initialExtra env m nameTail) key := by
  obtain ⟨c2, t2, hn2, hx⟩ := extraFields_some env m extra hextra
  rw [hname] at hn2
  cases hn2
  rw [hx]
  cases m.Container.Node with
  | none => exact labelLoop_get_unchanged env _ _ key hfree
  | some sn =>
    simp only []
    rw [mapGet_mapSet, if_neg (Ne.symm hkey)]
    exact labelLoop_get_unchanged env _ _ key hfree

theorem keys_mapSet (m : FieldMap) (k : GoString) (v : Value) (key : GoString)
    (h : key ∈ mapKeys (mapSet m k v)) : key = k ∨ key ∈ mapKeys m := by
  simp only [mapKeys, mapSet, List.map_cons, List.mem_cons, List.mem_map] at h
  rcases h with h | ⟨p, hp, hk⟩
  · exact Or.inl h
  · exact Or.inr (List.mem_map.mpr ⟨p, (List.mem_filter.mp hp).1, hk⟩)

theorem labelLoop_keys (env : Env) (labels : List (GoString × GoString)) (b : FieldMap)
    (P : GoString → Prop) (hb : ∀ key ∈ mapKeys b, P key)
    (hl : ∀ p ∈ labels, isGelfLabel env p.1 = true → P (p.1.drop 4)) :
    ∀ key ∈ mapKeys (labels.foldl (labelStep env) b), P key := by
  induction labels generalizing b with
  | nil => exact hb
  | cons p rest ih =>
    rw [List.foldl_cons]
    apply ih _ _ (fun q hq => hl q (List.mem_cons_of_mem _ hq))
    intro key hkey
    unfold labelStep at hkey
    split at hkey
    · rename_i hpass
      rcases keys_mapSet _ _ _ _ hkey with h | h
      · rw [h]
        exact hl p (List.mem_cons_self _ _) hpass
      · exact hb key h
    · exact hb key hkey

/-! ## Facts about the order of the label map -/

theorem labelsGet_perm (l1 l2 : List (GoString × GoString)) (k : GoString)
    (hperm : l1.Perm l2) (hnodup : (l1.map Prod.fst).Nodup) :
    labelsGet l2 k = labelsGet l1 k := by
  have hnodup2 : (l2.map Prod.fst).Nodup := (hperm.map Prod.fst).nodup_iff.mp hnodup
  by_cases h : ∃ v, (k, v) ∈ l1
  · obtain ⟨v, hv⟩ := h
    rw [labelsGet_of_mem l1 k v hnodup hv,
      labelsGet_of_mem l2 k v hnodup2 (hperm.mem_iff.mp hv)]
  · push_neg at h
    rw [labelsGet_of_forall l1 k (fun v hv => absurd hv (h v)),
      labelsGet_of_forall l2 k (fun v hv => absurd (hperm.mem_iff.mpr hv) (h v))]

theorem labelLoop_get_perm (env : Env) (l1 l2 : List (GoString × GoString)) (b : FieldMap)
    (key : GoString) (hperm : l1.Perm l2)
    (hclash : ∀ p ∈ l1, ∀ q ∈ l1, isGelfLabel env p.1 = true → isGelfLabel env q.1 = true →
      p.1.drop 4 = q.1.drop 4 → p.2 = q.2) :
    mapGet (l2.foldl (labelStep env) b) key = mapGet (l1.foldl (labelStep env) b) key := by
  by_cases h : ∃ p ∈ l1, isGelfLabel env p.1 = true ∧ p.1.drop 4 = key
  · obtain ⟨p, hp, hpass, hkey⟩ := h
    have hval : ∀ q ∈ l1, isGelfLabel env q.1 = true → q.1.drop 4 = key → q.2 = p.2 :=
      fun q hq hqp hqk => hclash q hq p hp hqp hpass (hqk.trans hkey.symm)
    rw [labelLoop_get_value env l1 b key p.2 hval (Or.inr ⟨p, hp, hpass, hkey⟩),
      labelLoop_get_value env l2 b key p.2 (fun q hq => hval q (hperm.mem_iff.mpr hq))
        (Or.inr ⟨p, hperm.mem_iff.mp hp, hpass, hkey⟩)]
  · push_neg at h
    rw [labelLoop_get_unchanged env l1 b key (fun q hq hqp => h q hq hqp),
      labelLoop_get_unchanged env l2 b key (fun q hq hqp => h q (hperm.mem_iff.mpr hq) hqp)]

theorem nodup_keys_mapSet (m : FieldMap) (k : GoString) (v : Value)
    (h : (mapKeys m).Nodup) : (mapKeys (mapSet m k v)).Nodup := by
  simp only [mapKeys, mapSet, List.map_cons, List.nodup_cons]
  constructor
  · intro hmem
    obtain ⟨p, hp, hk⟩ := List.mem_map.mp hmem
    have hne := (List.mem_filter.mp hp).2
    simp at hne
    exact hne hk
  · exact h.sublist ((List.filter_sublist m).map Prod.fst)

theorem nodup_keys_labelLoop (env : Env) (labels : List (GoString × GoString)) (b : FieldMap)
    (h : (mapKeys b).Nodup) : (mapKeys (labels.foldl (labelStep env) b)).Nodup := by
  induction labels generalizing b with
  | nil => exact h
  | cons p rest ih =>
    rw [List.foldl_cons]
    apply ih
    unfold labelStep
    split
    · exact nodup_keys_mapSet _ _ _ h
    · exact h

theorem nodup_keys_extraFields (env : Env) (m : RouterMessage) (extra : FieldMap)
    (h : extraFields env m = some extra) : (mapKeys extra).Nodup := by
  obtain ⟨c, t, _, hx⟩ := extraFields_some env m extra h
  have hinit : (mapKeys (initialExtra env m t)).Nodup := by
    have hreq : requiredKeys.Nodup := by decide
    exact hreq
  have hloop := nodup_keys_labelLoop env m.Container.Config.Labels _ hinit
  rw [hx]
  cases m.Container.Node with
  | none => exact hloop
  | some sn => exact nodup_keys_mapSet _ _ _ hloop

theorem mapGet_eq_some_iff (m : FieldMap) (h : (mapKeys m).Nodup) (k : GoString) (v : Value) :
    mapGet m k = some v ↔ (k, v) ∈ m := by
  induction m with
  | nil => simp [mapGet]
  | cons p rest ih =>
    obtain ⟨k1, v1⟩ := p
    simp only [mapKeys, List.map_cons, List.nodup_cons] at h
    by_cases hk : k1 = k
    · subst hk
      simp only [mapGet, if_true, List.mem_cons, Prod.mk.injEq, true_and]
      constructor
      · intro hv
        exact Or.inl (Option.some.inj hv).symm
      · rintro (hv | hmem)
        · rw [hv]
        · exact absurd (List.mem_map.mpr ⟨(k1, v), hmem, rfl⟩) h.1
    · simp only [mapGet, hk, if_false, List.mem_cons, Prod.mk.injEq]
      rw [ih h.2]
      constructor
      · exact Or.inr
      · rintro (⟨hkk, _⟩ | hmem)
        · exact absurd hkk.symm hk
        · exact hmem

theorem mapGet_ne_none_iff (m : FieldMap) (k : GoString) :
    mapGet m k ≠ none ↔ k ∈ mapKeys m := by
  induction m with
  | nil => simp [mapGet, mapKeys]
  | cons p rest ih =>
    obtain ⟨k1, v1⟩ := p
    by_cases hk : k1 = k
    · subst hk
      simp [mapGet, mapKeys]
    · have hk2 : ¬ k = k1 := fun h => hk h.symm
      simp only [mapGet, hk, if_false, mapKeys, List.map_cons, List.mem_cons, hk2, false_or]
      exact ih

theorem jsonMarshal_congr (env : Env) (m1 m2 : FieldMap) (h1 : (mapKeys m1).Nodup)
    (h2 : (mapKeys m2).Nodup) (hget : ∀ k, mapGet m1 k = mapGet m2 k) :
    jsonMarshal env m1 = jsonMarshal env m2 := by
  have hmem : ∀ p, p ∈ m1 ↔ p ∈ m2 := by
    rintro ⟨k, v⟩
    rw [← mapGet_eq_some_iff m1 h1, ← mapGet_eq_some_iff m2 h2, hget]
  have hall : m1.all (fun p => valueMarshals env p.2) = m2.all (fun p => valueMarshals env p.2) := by
    rw [Bool.eq_iff_iff, List.all_eq_true, List.all_eq_true]
    exact ⟨fun h p hp => h p ((hmem p).mpr hp), fun h p hp => h p ((hmem p).mp hp)⟩
  have hkeys : (mapKeys m1).Perm (mapKeys m2) := by
    rw [List.perm_ext_iff_of_nodup h1 h2]
    intro k
    rw [← mapGet_ne_none_iff, ← mapGet_ne_none_iff, hget]
  have hsorted : (mapKeys m1).insertionSort (fun a b => a ≤ b) =
      (mapKeys m2).insertionSort (fun a b => a ≤ b) := by
    apply List.eq_of_perm_of_sorted (r := fun a b : GoString => a ≤ b)
    · exact ((List.perm_insertionSort _ _).trans hkeys).trans (List.perm_insertionSort _ _).symm
    · exact List.sorted_insertionSort _ _
    · exact List.sorted_insertionSort _ _
  unfold jsonMarshal
  rw [hall, hsorted]
  simp only [hget]

theorem getExtraFields_relabel (env : Env) (m : RouterMessage)
    (labels2 : List (GoString × GoString)) (hperm : m.Container.Config.Labels.Perm labels2)
    (hmap : (m.Container.Config.Labels.map Prod.fst).Nodup)
    (hclash : ∀ p ∈ m.Container.Config.Labels, ∀ q ∈ m.Container.Config.Labels,
      isGelfLabel env p.1 = true → isGelfLabel env q.1 = true →
      p.1.drop 4 = q.1.drop 4 → p.2 = q.2) :
    getExtraFields env (relabel m labels2) = getExtraFields env m := by
  unfold getExtraFields
  cases h1 : extraFields env m with
  | none =>
    have h2 : extraFields env (relabel m labels2) = none := by
      unfold extraFields at h1 ⊢
      cases hn : m.Container.Name with
      | nil => simp [relabel, hn]
      | cons c t =>
        rw [hn] at h1
        cases hnode : m.Container.Node <;> simp [hnode] at h1
    rw [h2]
  | some e1 =>
    obtain ⟨c, t, hn, hx⟩ := extraFields_some env m e1 h1
    have hinit : initialExtra env (relabel m labels2) t = initialExtra env m t := by
      simp only [initialExtra, relabel]
      rw [labelsGet_perm _ _ _ hperm hmap]
    have h2 : ∃ e2, extraFields env (relabel m labels2) = some e2 ∧
        ∀ k, mapGet e2 k = mapGet e1 k := by
      have hloop := fun key =>
        labelLoop_get_perm env _ labels2 (initialExtra env m t) key hperm hclash
      unfold extraFields
      have hn2 : (relabel m labels2).Container.Name = c :: t := hn
      have hl2 : (relabel m labels2).Container.Config.Labels = labels2 := rfl
      have hnode2 : (relabel m labels2).Container.Node = m.Container.Node := rfl
      rw [hn2, hl2, hnode2, hx]
      simp only [hinit]
      cases m.Container.Node with
      | none => exact ⟨_, rfl, hloop⟩
      | some sn =>
        refine ⟨_, rfl, fun k => ?_⟩
        rw [mapGet_mapSet, mapGet_mapSet, hloop]
    obtain ⟨e2, he2, hget⟩ := h2
    rw [he2]
    simp only []
    rw [jsonMarshal_congr env e2 e1 (nodup_keys_extraFields _ _ _ he2)
      (nodup_keys_extraFields _ _ _ h1) hget]

/-! ## From `extra` to the marshalled object -/

theorem jsonString_cons_ascii (b : Nat) (rest : GoString) (h : b < 128) :
    jsonString (b :: rest) = b :: jsonString rest := by
  simp [jsonString, jsonStringFuel, runeSize, h]

theorem jsonString_ascii (s : GoString) (h : ∀ b ∈ s, b < 128) : jsonString s = s := by
  induction s with
  | nil => rfl
  | cons b rest ih =>
    rw [jsonString_cons_ascii b rest (h b (List.mem_cons_self _ _)),
      ih (fun c hc => h c (List.mem_cons_of_mem _ hc))]

theorem jsonStringFuel_of_valid (fuel : Nat) (s : GoString)
    (h : utf8ValidFuel fuel s = true) : jsonStringFuel fuel s = s := by
  induction fuel generalizing s with
  | zero =>
    cases s with
    | nil => rfl
    | cons b rest => simp [utf8ValidFuel] at h
  | succ fuel ih =>
    cases s with
    | nil => rfl
    | cons b rest =>
      simp only [utf8ValidFuel, Bool.and_eq_true, decide_eq_true_eq] at h
      simp only [jsonStringFuel, h.1, if_false]
      rw [ih _ h.2, List.take_append_drop]

/-- A valid UTF-8 string is written unchanged. -/
theorem jsonString_of_valid (s : GoString) (h : utf8Valid s = true) : jsonString s = s :=
  jsonStringFuel_of_valid s.length s h

theorem jsonString_head (s : GoString) (h : s.head? = some underscore) :
    (jsonString s).head? = some underscore := by
  cases s with
  | nil => simp at h
  | cons b rest =>
    have hb : b = underscore := by simpa using h
    rw [jsonString_cons_ascii b rest (by rw [hb]; decide)]
    simpa using hb

theorem jsonString_requiredKeys : ∀ k ∈ requiredKeys, jsonString k = k := by decide

theorem mem_jsonMarshal_iff (env : Env) (extra : FieldMap) (raw : RawJSON)
    (h : jsonMarshal env extra = some raw) (p : GoString × Value) :
    p ∈ raw ↔ ∃ k v, mapGet extra k = some v ∧ p = (jsonString k, jsonValue v) := by
  unfold jsonMarshal at h
  split at h
  · cases h
    rw [List.mem_filterMap]
    constructor
    · rintro ⟨k2, _, hk2⟩
      cases hg : mapGet extra k2 with
      | none => simp [hg] at hk2
      | some v2 =>
        simp only [hg, Option.map_some', Option.some.injEq] at hk2
        exact ⟨k2, v2, hg, hk2.symm⟩
    · rintro ⟨k, v, hg, hp⟩
      refine ⟨k, ?_, by simp [hg, hp]⟩
      rw [(List.perm_insertionSort _ _).mem_iff, ← mapGet_ne_none_iff, hg]
      simp
  · cases h

/-- The members of the object that `getExtraFields` returns are the entries of the map
`extra` it has built, each written by `json.Marshal`. -/
theorem getExtraFields_ok (env : Env) (m : RouterMessage) (raw : RawJSON)
    (h : getExtraFields env m = .ok raw) :
    ∃ extra, extraFields env m = some extra ∧
      ∀ p, p ∈ raw ↔ ∃ k v, mapGet extra k = some v ∧ p = (jsonString k, jsonValue v) := by
  unfold getExtraFields at h
  cases hx : extraFields env m with
  | none => simp [hx] at h
  | some extra =>
    simp only [hx] at h
    cases hj : jsonMarshal env extra with
    | none => simp [hj] at h
    | some raw2 =>
      simp only [hj] at h
      have hr : raw2 = raw := by injection h
      rw [← hr]
      exact ⟨extra, rfl, mem_jsonMarshal_iff env extra raw2 hj⟩

theorem values_mapSet (m : FieldMap) (k : GoString) (v : Value) (P : Value → Prop)
    (hm : ∀ p ∈ m, P p.2) (hv : P v) : ∀ p ∈ mapSet m k v, P p.2 := by
  intro p hp
  rcases List.mem_cons.mp hp with h | h
  · rw [h]
    exact hv
  · exact hm p (List.mem_filter.mp h).1

theorem labelLoop_values (env : Env) (labels : List (GoString × GoString)) (b : FieldMap)
    (P : Value → Prop) (hb : ∀ p ∈ b, P p.2) (hstr : ∀ s, P (.str s)) :
    ∀ p ∈ labels.foldl (labelStep env) b, P p.2 := by
  induction labels generalizing b with
  | nil => exact hb
  | cons q rest ih =>
    rw [List.foldl_cons]
    apply ih
    unfold labelStep
    split
    · exact values_mapSet _ _ _ P hb (hstr _)
    · exact hb

/-- When it returns: `getExtraFields` returns a mapping, without error and without
panic, on every record whose container name is non-empty and whose creation time can be
marshalled. -/
theorem getExtraFields_returns (env : Env) (m : RouterMessage)
    (hname : m.Container.Name ≠ []) (htime : env.timeMarshals m.Container.Created = true) :
    ∃ raw, getExtraFields env m = .ok raw := by
  cases hx : extraFields env m with
  | none =>
    exfalso
    unfold extraFields at hx
    cases hn : m.Container.Name with
    | nil => exact hname hn
    | cons c t =>
      rw [hn] at hx
      cases hnode : m.Container.Node <;> simp [hnode] at hx
  | some extra =>
    obtain ⟨c, t, _, he⟩ := extraFields_some env m extra hx
    have hinit : ∀ p ∈ initialExtra env m t, valueMarshals env p.2 = true := by
      intro p hp
      simp only [initialExtra, List.mem_cons, List.mem_singleton, List.not_mem_nil,
        or_false] at hp
      rcases hp with h | h | h | h | h | h | h | h | h | h <;> rw [h] <;>
        simp [valueMarshals, htime]
    have hloop := labelLoop_values env m.Container.Config.Labels _
      (fun v => valueMarshals env v = true) hinit (fun _ => rfl)
    have hall : extra.all (fun p => valueMarshals env p.2) = true := by
      rw [List.all_eq_true, he]
      cases m.Container.Node with
      | none => exact hloop
      | some sn => exact values_mapSet _ _ _ (fun v => valueMarshals env v = true) hloop rfl
    unfold getExtraFields jsonMarshal
    simp [hx, hall]

/-- When it builds a message: the loop body of `Stream` builds a message for every record
whose container name is non-empty and whose creation time can be marshalled. -/
theorem mapRecord_returns (env : Env) (m : RouterMessage)
    (hname : m.Container.Name ≠ []) (htime : env.timeMarshals m.Container.Created = true) :
    ∃ msg, mapRecord env m = .ok msg := by
  obtain ⟨raw, hraw⟩ := getExtraFields_returns env m hname htime
  unfold mapRecord
  rw [hraw]
  exact ⟨_, rfl⟩

/-! ## Facts about `float64` rounding and `timeUnix` -/

theorem log2Fuel_spec (fuel n : Nat) (hfuel : n ≤ fuel) (hn : 0 < n) :
    2 ^ log2Fuel fuel n ≤ n ∧ n < 2 ^ (log2Fuel fuel n + 1) := by
  induction fuel generalizing n with
  | zero => omega
  | succ fuel ih =>
    unfold log2Fuel
    split
    · simp
      omega
    · have h := ih (n / 2) (by omega) (by omega)
      rw [pow_succ, pow_succ 2 (log2Fuel fuel (n / 2) + 1)]
      omega

theorem floorLog2_spec (n : Nat) (hn : 0 < n) :
    2 ^ floorLog2 n ≤ n ∧ n < 2 ^ (floorLog2 n + 1) :=
  log2Fuel_spec n n (le_refl n) hn

theorem f64Nearest_binade (a b s : Nat) (ha : 0 < a) (hb : 0 < b) (hs : s ≤ 52)
    (hab : a < b * 2 ^ s) :
    ∃ en : Nat, (if b * 2 ^ floorLog2 a ≤ a * 2 ^ floorLog2 b then (floorLog2 a : Int) - floorLog2 b
      else (floorLog2 a : Int) - floorLog2 b - 1) - 52 = -(en : Int) ∧ 53 ≤ en + s ∧
      2 ^ 52 * b ≤ a * 2 ^ en := by
  have hk := floorLog2_spec a ha
  have hl := floorLog2_spec b hb
  generalize floorLog2 a = k at hk ⊢
  generalize floorLog2 b = l at hl ⊢
  split
  · rename_i hc
    have h1 : b * 2 ^ k < b * 2 ^ (s + l) := by
      calc b * 2 ^ k ≤ a * 2 ^ l := hc
        _ < b * 2 ^ s * 2 ^ l := Nat.mul_lt_mul_of_pos_right hab (by positivity)
        _ = b * 2 ^ (s + l) := by rw [pow_add, mul_assoc]
    have h2 : 2 ^ k < 2 ^ (s + l) := Nat.lt_of_mul_lt_mul_left h1
    have h3 : k < s + l := (Nat.pow_lt_pow_iff_right (by norm_num)).mp h2
    refine ⟨52 + l - k, by omega, by omega, ?_⟩
    apply Nat.le_of_mul_le_mul_right _ (show 0 < 2 ^ k by positivity)
    calc 2 ^ 52 * b * 2 ^ k = 2 ^ 52 * (b * 2 ^ k) := by ring
      _ ≤ 2 ^ 52 * (a * 2 ^ l) := Nat.mul_le_mul_left _ hc
      _ = a * 2 ^ (52 + l - k + k) := by
        rw [show 52 + l - k + k = 52 + l by omega, pow_add]
        ring
      _ = a * 2 ^ (52 + l - k) * 2 ^ k := by rw [pow_add, mul_assoc]
  · have h1 : 2 ^ k < 2 ^ (l + 1 + s) := by
      calc 2 ^ k ≤ a := hk.1
        _ < b * 2 ^ s := hab
        _ < 2 ^ (l + 1) * 2 ^ s := Nat.mul_lt_mul_of_pos_right hl.2 (by positivity)
        _ = 2 ^ (l + 1 + s) := (pow_add 2 (l + 1) s).symm
    have h3 : k < l + 1 + s := (Nat.pow_lt_pow_iff_right (by norm_num)).mp h1
    refine ⟨53 + l - k, by omega, by omega, ?_⟩
    calc 2 ^ 52 * b ≤ 2 ^ 52 * 2 ^ (l + 1) := Nat.mul_le_mul_left _ hl.2.le
      _ = 2 ^ (k + (53 + l - k)) := by
        rw [show k + (53 + l - k) = 52 + (l + 1) by omega, pow_add 2 52 (l + 1)]
      _ = 2 ^ k * 2 ^ (53 + l - k) := pow_add 2 k _
      _ ≤ a * 2 ^ (53 + l - k) := Nat.mul_le_mul_right _ hk.1

theorem roundHalfEven_spec (p q : Nat) (hq : 0 < q) :
    2 * (roundHalfEven p q * q) ≤ 2 * p + q ∧ 2 * p ≤ 2 * (roundHalfEven p q * q) + q := by
  have hdm : q * (p / q) + p % q = p := Nat.div_add_mod p q
  have hr : p % q < q := Nat.mod_lt p hq
  generalize hd : p / q = d at hdm
  generalize hr2 : p % q = r at hdm hr
  have e1 : (d + 1) * q = q * d + q := by ring
  have e2 : d * q = q * d := by ring
  unfold roundHalfEven
  simp only [hd, hr2]
  split
  · rw [e2]; omega
  · split
    · rw [e1]; omega
    · split
      · rw [e2]; omega
      · rw [e1]; omega

theorem roundHalfEven_one (p : Nat) : roundHalfEven p 1 = p := by
  simp [roundHalfEven, Nat.mod_one]

theorem roundHalfEven_nearest (p q : Nat) (hq : 0 < q) (j : Int) :
    |(p : ℚ) / q - roundHalfEven p q| ≤ |(p : ℚ) / q - j| := by
  obtain ⟨h1, h2⟩ := roundHalfEven_spec p q hq
  generalize roundHalfEven p q = m at h1 h2 ⊢
  have hq0 : (0 : ℚ) < q := by exact_mod_cast hq
  have h1q : (2 : ℚ) * (m * q) ≤ 2 * p + q := by exact_mod_cast h1
  have h2q : (2 : ℚ) * p ≤ 2 * (m * q) + q := by exact_mod_cast h2
  have hhalf : |(p : ℚ) / q - m| ≤ 1 / 2 := by
    rw [abs_le]
    constructor
    · have : (m : ℚ) - 1 / 2 ≤ p / q := by
        rw [le_div_iff₀ hq0]
        linarith
      linarith
    · have : (p : ℚ) / q ≤ m + 1 / 2 := by
        rw [div_le_iff₀ hq0]
        linarith
      linarith
  by_cases hj : j = (m : Int)
  · subst hj
    simp
  · have hdist : (1 : ℚ) ≤ |(m : ℚ) - j| := by
      have hz : (1 : Int) ≤ |(m : Int) - j| := by
        have : (m : Int) - j ≠ 0 := fun h => hj (by omega)
        exact Int.one_le_abs this
      have : ((1 : Int) : ℚ) ≤ ((|(m : Int) - j| : Int) : ℚ) := by exact_mod_cast hz
      simpa using this
    have htri : |(m : ℚ) - j| ≤ |(p : ℚ) / q - m| + |(p : ℚ) / q - j| := by
      have := abs_sub_le (m : ℚ) ((p : ℚ) / q) j
      rw [abs_sub_comm (m : ℚ) ((p : ℚ) / q)] at this
      exact this
    linarith

theorem f64Nearest_spec (a b s : Nat) (ha : 0 < a) (hb : 0 < b) (hs : s ≤ 52)
    (hab : a < b * 2 ^ s) :
    ∃ en : Nat, f64Nearest a b = (roundHalfEven (a * 2 ^ en) b, -(en : Int)) ∧ 53 ≤ en + s ∧
      2 ^ 52 * b ≤ a * 2 ^ en := by
  obtain ⟨en, hE, h53, hlow⟩ := f64Nearest_binade a b s ha hb hs hab
  refine ⟨en, ?_, h53, hlow⟩
  unfold f64Nearest
  simp only [Nat.pos_iff_ne_zero.mp ha, if_false]
  rw [hE]
  have hneg : ¬ (0 ≤ -(en : Int)) := by omega
  simp [hneg]

theorem abs_scaled (m x Q : ℚ) (hQ : 0 < Q) : |m * Q⁻¹ - x| = |x * Q - m| * Q⁻¹ := by
  have h : m * Q⁻¹ - x = -((x * Q - m) * Q⁻¹) := by
    field_simp
    ring
  rw [h, abs_neg, abs_mul, abs_of_pos (inv_pos.mpr hQ)]

theorem f64Nearest_nearest (a b s : Nat) (ha : 0 < a) (hb : 0 < b) (hs : s ≤ 52)
    (hab : a < b * 2 ^ s) (m2 : Nat) (e2 : Int) (hm2 : m2 < 2 ^ 53) :
    |((f64Nearest a b).1 : ℚ) * 2 ^ (f64Nearest a b).2 - (a : ℚ) / b| ≤
      |(m2 : ℚ) * 2 ^ e2 - (a : ℚ) / b| := by
  obtain ⟨en, hr, _, hlow⟩ := f64Nearest_spec a b s ha hb hs hab
  rw [hr]
  simp only []
  have hb0 : (0 : ℚ) < b := by exact_mod_cast hb
  have hQ : (0 : ℚ) < 2 ^ en := by positivity
  have hnear := roundHalfEven_nearest (a * 2 ^ en) b hb
  generalize roundHalfEven (a * 2 ^ en) b = m at hnear ⊢
  have hX : ((a * 2 ^ en : Nat) : ℚ) / b = (a : ℚ) / b * 2 ^ en := by
    push_cast
    ring
  rw [hX] at hnear
  have hlowq : (2 : ℚ) ^ 52 ≤ (a : ℚ) / b * 2 ^ en := by
    have h : ((2 ^ 52 * b : Nat) : ℚ) ≤ ((a * 2 ^ en : Nat) : ℚ) := by exact_mod_cast hlow
    push_cast at h
    rw [div_mul_eq_mul_div, le_div_iff₀ hb0]
    exact h
  have hpow : (2 : ℚ) ^ (-(en : Int)) = ((2 : ℚ) ^ en)⁻¹ := by
    rw [zpow_neg, zpow_natCast]
  rw [hpow]
  generalize (2 : ℚ) ^ en = Q at hQ hnear hlowq hpow ⊢
  generalize (a : ℚ) / b = x at hnear hlowq ⊢
  rw [abs_scaled m x Q hQ]
  by_cases hcase : 0 ≤ e2 + en
  · have he2 : (2 : ℚ) ^ e2 = 2 ^ (e2 + en).toNat * Q⁻¹ := by
      have h1 : e2 = ((e2 + en).toNat : Int) + (-(en : Int)) := by omega
      rw [← hpow, ← zpow_natCast, ← zpow_add₀ (by norm_num : (2 : ℚ) ≠ 0), ← h1]
    have hj := hnear ((m2 * 2 ^ (e2 + en).toNat : Nat) : Int)
    rw [he2, ← mul_assoc]
    have hcast : (((m2 * 2 ^ (e2 + en).toNat : Nat) : Int) : ℚ) =
        (m2 : ℚ) * 2 ^ (e2 + en).toNat := by
      push_cast
      ring
    rw [hcast] at hj
    rw [abs_scaled _ x Q hQ]
    exact mul_le_mul_of_nonneg_right hj (inv_pos.mpr hQ).le
  · have he2 : (2 : ℚ) ^ e2 ≤ Q⁻¹ / 2 := by
      have h1 : (2 : ℚ) ^ e2 ≤ 2 ^ (-(en : Int) - 1) :=
        zpow_le_zpow_right₀ (by norm_num) (by omega)
      have h2 : (2 : ℚ) ^ (-(en : Int) - 1) = Q⁻¹ / 2 := by
        rw [zpow_sub₀ (by norm_num : (2 : ℚ) ≠ 0), hpow, zpow_one]
      rw [h2] at h1
      exact h1
    have hm2q : (m2 : ℚ) < 2 ^ 53 := by exact_mod_cast hm2
    have hm2nn : (0 : ℚ) ≤ m2 := Nat.cast_nonneg m2
    have hQi : (0 : ℚ) < Q⁻¹ := inv_pos.mpr hQ
    have hy : (m2 : ℚ) * 2 ^ e2 < 2 ^ 52 * Q⁻¹ := by
      calc (m2 : ℚ) * 2 ^ e2 ≤ m2 * (Q⁻¹ / 2) := mul_le_mul_of_nonneg_left he2 hm2nn
        _ < 2 ^ 53 * (Q⁻¹ / 2) := mul_lt_mul_of_pos_right hm2q (by positivity)
        _ = 2 ^ 52 * Q⁻¹ := by ring
    have hj := hnear ((2 ^ 52 : Nat) : Int)
    have hcast : (((2 ^ 52 : Nat) : Int) : ℚ) = 2 ^ 52 := by push_cast; ring
    rw [hcast, abs_of_nonneg (sub_nonneg.mpr hlowq)] at hj
    have hxQ : x = x * Q * Q⁻¹ := by field_simp
    calc |x * Q - m| * Q⁻¹ ≤ (x * Q - 2 ^ 52) * Q⁻¹ := mul_le_mul_of_nonneg_right hj hQi.le
      _ = x - 2 ^ 52 * Q⁻¹ := by
        rw [sub_mul, ← hxQ]
      _ ≤ x - (m2 : ℚ) * 2 ^ e2 := by linarith
      _ ≤ |(m2 : ℚ) * 2 ^ e2 - x| := by
        rw [abs_sub_comm]
        exact le_abs_self _

theorem f64OfInt_nat (a : Nat) (ha : 0 < a) (h52 : a < 2 ^ 52) :
    ∃ en : Nat, 0 < en ∧
      f64OfInt (a : Int) = { neg := false, mant := a * 2 ^ en, exp := -(en : Int) } := by
  have hk := floorLog2_spec a ha
  have hk52 : floorLog2 a < 52 := by
    have h1 : 2 ^ floorLog2 a < 2 ^ 52 := lt_of_le_of_lt hk.1 h52
    exact (Nat.pow_lt_pow_iff_right (by norm_num)).mp h1
  have hl : floorLog2 1 = 0 := by decide
  have hc : 1 * 2 ^ floorLog2 a ≤ a * 2 ^ 0 := by simpa using hk.1
  have hneg : ¬ (0 ≤ (floorLog2 a : Int) - 52) := by omega
  refine ⟨52 - floorLog2 a, by omega, ?_⟩
  have hen : (-((floorLog2 a : Int) - 52)).toNat = 52 - floorLog2 a := by omega
  have hexp : (floorLog2 a : Int) - 52 = -((52 - floorLog2 a : Nat) : Int) := by omega
  simp only [f64OfInt, f64Nearest, Int.natAbs_ofNat, Nat.pos_iff_ne_zero.mp ha, if_false, hl,
    hc, if_true, Nat.cast_zero, sub_zero, hneg, hen, roundHalfEven_one]
  simp [hexp]

theorem wrapInt64_of_range (n : Int) (h0 : 0 ≤ n) (h63 : n < 2 ^ 63) : wrapInt64 n = n := by
  unfold wrapInt64
  norm_num at h63 ⊢
  omega

theorem unixMillis_of_range (t : Time) (h0 : 0 ≤ t.nanos) (h63 : t.nanos < 2 ^ 63) :
    ∃ a : Nat, Int.tdiv t.UnixNano 1000000 = (a : Int) ∧ (a : Int) = t.nanos / 1000000 ∧
      a < 1000 * 2 ^ 34 := by
  have hw : t.UnixNano = t.nanos := wrapInt64_of_range t.nanos h0 h63
  have hdiv : Int.tdiv t.UnixNano 1000000 = t.nanos / 1000000 := by
    rw [hw]
    exact Int.tdiv_eq_ediv h0 (by norm_num)
  have hnn : 0 ≤ t.nanos / 1000000 := Int.ediv_nonneg h0 (by norm_num)
  refine ⟨(t.nanos / 1000000).toNat, ?_, ?_, ?_⟩
  · rw [hdiv]
    omega
  · omega
  · norm_num at h63 ⊢
    omega

theorem abs_natAbs_scaled_le (m2 e2 : Int) (q : ℚ) (hq : 0 ≤ q) :
    |((m2.natAbs : Nat) : ℚ) * 2 ^ e2 - q| ≤ |(m2 : ℚ) * 2 ^ e2 - q| := by
  have hp : (0 : ℚ) < 2 ^ e2 := by positivity
  obtain ⟨k, hk | hk⟩ := Int.eq_nat_or_neg m2
  · subst hk
    simp
  · subst hk
    have hk0 : (0 : ℚ) ≤ (k : ℚ) * 2 ^ e2 := mul_nonneg (Nat.cast_nonneg _) hp.le
    have h1 : ((-(k : Int) : Int) : ℚ) * 2 ^ e2 - q = -((k : ℚ) * 2 ^ e2 + q) := by
      push_cast
      ring
    rw [h1, Int.natAbs_neg, Int.natAbs_ofNat, abs_neg, abs_of_nonneg (add_nonneg hk0 hq), abs_le]
    constructor <;> linarith

theorem f64Div_thousand_zero :
    f64Div (f64OfInt ((0 : Nat) : Int)) f64Thousand = { neg := false, mant := 0, exp := 0 } := by
  decide

theorem f64Div_thousand_eq (a : Nat) (hpos : 0 < a) (ha : a < 1000 * 2 ^ 34) :
    ∃ en1 : Nat, 0 < 2 ^ en1 ∧ a * 2 ^ en1 < 1000 * 2 ^ en1 * 2 ^ 34 ∧
      (f64Div (f64OfInt (a : Int)) f64Thousand).toRat =
        ((f64Nearest (a * 2 ^ en1) (1000 * 2 ^ en1)).1 : ℚ) *
          2 ^ (f64Nearest (a * 2 ^ en1) (1000 * 2 ^ en1)).2 := by
  obtain ⟨en1, hen1, hx⟩ := f64OfInt_nat a hpos (lt_trans ha (by norm_num))
  have hd : ¬ (0 ≤ -(en1 : Int) - 0) := by omega
  have hden : (-(-(en1 : Int) - 0)).toNat = en1 := by omega
  have hP : 0 < 2 ^ en1 := by positivity
  refine ⟨en1, hP, ?_, ?_⟩
  · calc a * 2 ^ en1 < 1000 * 2 ^ 34 * 2 ^ en1 := Nat.mul_lt_mul_of_pos_right ha hP
      _ = 1000 * 2 ^ en1 * 2 ^ 34 := by ring
  · rw [hx]
    have hne : en1 ≠ 0 := by omega
    simp [f64Div, f64Thousand, hden, Float64.toRat, hne]

theorem f64Div_thousand_spec (a : Nat) (ha : a < 1000 * 2 ^ 34) :
    |(f64Div (f64OfInt (a : Int)) f64Thousand).toRat - (a : ℚ) / 1000| ≤ 1 / 2 ^ 20 ∧
    ∀ (m2 e2 : Int), m2.natAbs < 2 ^ 53 →
      |(f64Div (f64OfInt (a : Int)) f64Thousand).toRat - (a : ℚ) / 1000| ≤
        |(m2 : ℚ) * 2 ^ e2 - (a : ℚ) / 1000| := by
  rcases Nat.eq_zero_or_pos a with h0 | hpos
  · subst h0
    rw [f64Div_thousand_zero]
    constructor
    · norm_num [Float64.toRat]
    · intro m2 e2 _
      have hz : ({ neg := false, mant := 0, exp := 0 } : Float64).toRat = 0 := by
        norm_num [Float64.toRat]
      rw [hz]
      simp
  · obtain ⟨en1, hP, hlt, hval⟩ := f64Div_thousand_eq a hpos ha
    have hquot : (((a * 2 ^ en1 : Nat) : ℚ)) / ((1000 * 2 ^ en1 : Nat) : ℚ) = (a : ℚ) / 1000 := by
      have hPq : ((2 : ℚ) ^ en1) ≠ 0 := by positivity
      push_cast
      field_simp
      ring
    have ha2 : 0 < a * 2 ^ en1 := Nat.mul_pos hpos hP
    have hb2 : 0 < 1000 * 2 ^ en1 := Nat.mul_pos (by norm_num) hP
    rw [hval]
    constructor
    · obtain ⟨en, hr, h53, _⟩ := f64Nearest_spec _ _ 34 ha2 hb2 (by norm_num) hlt
      obtain ⟨hle, hge⟩ := roundHalfEven_spec (a * 2 ^ en1 * 2 ^ en) (1000 * 2 ^ en1) hb2
      rw [hr]
      simp only []
      generalize roundHalfEven (a * 2 ^ en1 * 2 ^ en) (1000 * 2 ^ en1) = mt at hle hge ⊢
      have hle2 : 2000 * mt ≤ 2 * a * 2 ^ en + 1000 := by
        apply Nat.le_of_mul_le_mul_right _ hP
        calc 2000 * mt * 2 ^ en1 = 2 * (mt * (1000 * 2 ^ en1)) := by ring
          _ ≤ 2 * (a * 2 ^ en1 * 2 ^ en) + 1000 * 2 ^ en1 := hle
          _ = (2 * a * 2 ^ en + 1000) * 2 ^ en1 := by ring
      have hge2 : 2 * a * 2 ^ en ≤ 2000 * mt + 1000 := by
        apply Nat.le_of_mul_le_mul_right _ hP
        calc 2 * a * 2 ^ en * 2 ^ en1 = 2 * (a * 2 ^ en1 * 2 ^ en) := by ring
          _ ≤ 2 * (mt * (1000 * 2 ^ en1)) + 1000 * 2 ^ en1 := hge
          _ = (2000 * mt + 1000) * 2 ^ en1 := by ring
      have hQ : (2 : ℚ) ^ 19 ≤ 2 ^ en := by
        apply pow_le_pow_right₀ (by norm_num)
        omega
      have hle3 : (2000 : ℚ) * mt ≤ 2 * a * 2 ^ en + 1000 := by exact_mod_cast hle2
      have hge3 : (2 : ℚ) * a * 2 ^ en ≤ 2000 * mt + 1000 := by exact_mod_cast hge2
      have hQpos : (0 : ℚ) < 2 ^ en := by positivity
      rw [zpow_neg, zpow_natCast, ← div_eq_mul_inv]
      generalize (2 : ℚ) ^ en = Q at hQ hle3 hge3 hQpos ⊢
      have h19 : (2 : ℚ) ^ 19 = 524288 := by norm_num
      have h20 : (1 : ℚ) / 2 ^ 20 = 1 / 1048576 := by norm_num
      rw [h19] at hQ
      rw [h20, abs_le]
      constructor
      · have h1 : ((a : ℚ) / 1000 - 1 / 1048576) * Q ≤ mt := by
          have : ((a : ℚ) / 1000 - 1 / 1048576) * Q = (2 * a * Q) / 2000 - Q / 1048576 := by ring
          rw [this]
          linarith
        have h2 : (a : ℚ) / 1000 - 1 / 1048576 ≤ mt / Q := (le_div_iff₀ hQpos).mpr h1
        linarith
      · have h1 : (mt : ℚ) ≤ ((a : ℚ) / 1000 + 1 / 1048576) * Q := by
          have : ((a : ℚ) / 1000 + 1 / 1048576) * Q = (2 * a * Q) / 2000 + Q / 1048576 := by ring
          rw [this]
          linarith
        have h2 : (mt : ℚ) / Q ≤ (a : ℚ) / 1000 + 1 / 1048576 := (div_le_iff₀ hQpos).mpr h1
        linarith
    · intro m2 e2 hm2
      have h := f64Nearest_nearest _ _ 34 ha2 hb2 (by norm_num) hlt m2.natAbs e2 hm2
      rw [hquot] at h
      exact le_trans h (abs_natAbs_scaled_le m2 e2 _ (by positivity))

theorem floor_millis (n : Int) : ⌊(n : ℚ) / 1000000⌋ = n / 1000000 := by
  have h := Rat.floor_intCast_div_natCast n 1000000
  simpa using h

theorem timeUnix_spec (t : Time) (h0 : 0 ≤ t.nanos) (h63 : t.nanos < 2 ^ 63) :
    timeUnix t = f64Div (f64OfInt ⌊(t.nanos : ℚ) / 1000000⌋) f64Thousand ∧
    |(timeUnix t).toRat - (⌊(t.nanos : ℚ) / 1000000⌋ : ℚ) / 1000| ≤ 1 / 2 ^ 20 ∧
    ∀ (m2 e2 : Int), m2.natAbs < 2 ^ 53 →
      |(timeUnix t).toRat - (⌊(t.nanos : ℚ) / 1000000⌋ : ℚ) / 1000| ≤
        |(m2 : ℚ) * 2 ^ e2 - (⌊(t.nanos : ℚ) / 1000000⌋ : ℚ) / 1000| := by
  obtain ⟨a, htdiv, hediv, ha⟩ := unixMillis_of_range t h0 h63
  have hfloor : ⌊(t.nanos : ℚ) / 1000000⌋ = (a : Int) := by
    rw [floor_millis, hediv]
  have htu : timeUnix t = f64Div (f64OfInt (a : Int)) f64Thousand := by
    unfold timeUnix
    rw [htdiv]
  rw [hfloor, htu]
  have hcast : (((a : Int)) : ℚ) = (a : ℚ) := by norm_cast
  rw [hcast]
  exact ⟨rfl, f64Div_thousand_spec a ha⟩

theorem f64Nearest_upper (a b en : Nat) (ha : 0 < a) (hb : 0 < b)
    (hexp : (f64Nearest a b).2 = -(en : Int)) : a * 2 ^ en < 2 ^ 53 * b := by
  have hk := floorLog2_spec a ha
  have hl := floorLog2_spec b hb
  have he : (f64Nearest a b).2 =
      (if b * 2 ^ floorLog2 a ≤ a * 2 ^ floorLog2 b then (floorLog2 a : Int) - floorLog2 b
        else (floorLog2 a : Int) - floorLog2 b - 1) - 52 := by
    unfold f64Nearest
    simp only [Nat.pos_iff_ne_zero.mp ha, if_false]
    generalize (if b * 2 ^ floorLog2 a ≤ a * 2 ^ floorLog2 b then
      (floorLog2 a : Int) - floorLog2 b else (floorLog2 a : Int) - floorLog2 b - 1) = E
    by_cases h0 : 0 ≤ E - 52 <;> simp [h0]
  rw [he] at hexp
  generalize floorLog2 a = k at hk hexp
  generalize floorLog2 b = l at hl hexp
  split at hexp
  · have hen : en + k = 52 + l := by omega
    apply Nat.lt_of_mul_lt_mul_right (a := 2 ^ k)
    calc a * 2 ^ en * 2 ^ k = a * 2 ^ (en + k) := by rw [pow_add, mul_assoc]
      _ = a * 2 ^ (52 + l) := by rw [hen]
      _ < 2 ^ (k + 1) * 2 ^ (52 + l) := Nat.mul_lt_mul_of_pos_right hk.2 (by positivity)
      _ = 2 ^ 53 * 2 ^ l * 2 ^ k := by
        rw [pow_add 2 k 1, pow_add 2 52 l]
        ring
      _ ≤ 2 ^ 53 * b * 2 ^ k :=
        Nat.mul_le_mul_right _ (Nat.mul_le_mul_left _ hl.1)
  · rename_i hc
    have hen : en + k = 53 + l := by omega
    have hc2 : a * 2 ^ l < b * 2 ^ k := Nat.lt_of_not_le hc
    apply Nat.lt_of_mul_lt_mul_right (a := 2 ^ k)
    calc a * 2 ^ en * 2 ^ k = a * 2 ^ (en + k) := by rw [pow_add, mul_assoc]
      _ = a * 2 ^ l * 2 ^ 53 := by
        rw [hen, pow_add 2 53 l]
        ring
      _ < b * 2 ^ k * 2 ^ 53 := Nat.mul_lt_mul_of_pos_right hc2 (by positivity)
      _ = 2 ^ 53 * b * 2 ^ k := by ring

theorem roundHalfEven_le (p q bound : Nat) (hq : 0 < q) (h : p < bound * q) :
    roundHalfEven p q ≤ bound := by
  obtain ⟨h1, _⟩ := roundHalfEven_spec p q hq
  by_contra hgt
  have hm : bound + 1 ≤ roundHalfEven p q := by omega
  have h2 : (bound + 1) * q ≤ roundHalfEven p q * q := Nat.mul_le_mul_right _ hm
  have h3 : (bound + 1) * q = bound * q + q := by ring
  omega

theorem f64Nearest_representable (a b s : Nat) (ha : 0 < a) (hb : 0 < b) (hs : s ≤ 52)
    (hab : a < b * 2 ^ s) :
    ∃ m2 e2 : Int, m2.natAbs < 2 ^ 53 ∧
      ((f64Nearest a b).1 : ℚ) * 2 ^ (f64Nearest a b).2 = (m2 : ℚ) * 2 ^ e2 := by
  obtain ⟨en, hr, _, _⟩ := f64Nearest_spec a b s ha hb hs hab
  have hup := f64Nearest_upper a b en ha hb (by rw [hr])
  have hle := roundHalfEven_le (a * 2 ^ en) b (2 ^ 53) hb hup
  rw [hr]
  simp only []
  generalize roundHalfEven (a * 2 ^ en) b = m at hle
  rcases Nat.lt_or_ge m (2 ^ 53) with hlt | hge
  · exact ⟨(m : Int), -(en : Int), by simpa using hlt, by push_cast; rfl⟩
  · have hm : m = 2 ^ 53 := le_antisymm hle hge
    refine ⟨2 ^ 52, -(en : Int) + 1, by norm_num, ?_⟩
    rw [hm, zpow_add₀ (by norm_num : (2 : ℚ) ≠ 0)]
    push_cast
    ring

theorem f64Div_thousand_representable (a : Nat) (ha : a < 1000 * 2 ^ 34) :
    ∃ m2 e2 : Int, m2.natAbs < 2 ^ 53 ∧
      (f64Div (f64OfInt (a : Int)) f64Thousand).toRat = (m2 : ℚ) * 2 ^ e2 := by
  rcases Nat.eq_zero_or_pos a with h0 | hpos
  · subst h0
    rw [f64Div_thousand_zero]
    exact ⟨0, 0, by norm_num, by norm_num [Float64.toRat]⟩
  · obtain ⟨en1, hP, hlt, hval⟩ := f64Div_thousand_eq a hpos ha
    rw [hval]
    exact f64Nearest_representable _ _ 34 (Nat.mul_pos hpos hP)
      (Nat.mul_pos (by norm_num) hP) (by norm_num) hlt

theorem timeUnix_representable (t : Time) (h0 : 0 ≤ t.nanos) (h63 : t.nanos < 2 ^ 63) :
    ∃ m2 e2 : Int, m2.natAbs < 2 ^ 53 ∧ (timeUnix t).toRat = (m2 : ℚ) * 2 ^ e2 := by
  obtain ⟨a, htdiv, _, ha⟩ := unixMillis_of_range t h0 h63
  unfold timeUnix
  rw [htdiv]
  exact f64Div_thousand_representable a ha

/-- A timestamp of 0.125 s: the quotient 125 / 1000 is a `float64`, and `timeUnix` is
exactly that number. -/
theorem timeUnix_exact_at_eighth :
    (timeUnix { nanos := 125000000 }).toRat = 125 / 1000 := by
  have h : timeUnix { nanos := 125000000 } =
      { neg := false, mant := 4503599627370496, exp := -55 } := by decide
  rw [h]
  norm_num [Float64.toRat, zpow_neg]

/-! ## The map `extra` -/

theorem extra_get_of_gelf_label (env : Env) (m : RouterMessage) (extra : FieldMap)
    (k v : GoString) (hextra : extraFields env m = some extra)
    (hmem : (k, v) ∈ m.Container.Config.Labels) (hlen : 5 < k.length)
    (htag : startsWithGelfNoCase k)
    (hsame : ∀ p ∈ m.Container.Config.Labels,
      isGelfLabel env p.1 = true → p.1.drop 4 = k.drop 4 → p.2 = v)
    (hnode : m.Container.Node = none ∨ k.drop 4 ≠ ascii "_swarm_node") :
    mapGet extra (k.drop 4) = some (.str v) := by
  obtain ⟨c, t, _, hx⟩ := extraFields_some env m extra hextra
  have hloop : mapGet (m.Container.Config.Labels.foldl (labelStep env) (initialExtra env m t))
      (k.drop 4) = some (.str v) :=
    labelLoop_get_value env _ _ _ v hsame
      (Or.inr ⟨(k, v), hmem, isGelfLabel_of_startsWith env k hlen htag, rfl⟩)
  rw [hx]
  cases hn : m.Container.Node with
  | none => exact hloop
  | some sn =>
    rcases hnode with h | h
    · rw [hn] at h
      cases h
    · simp only []
      rw [mapGet_mapSet, if_neg (Ne.symm h)]
      exact hloop

theorem extra_get_required (env : Env) (m : RouterMessage) (extra : FieldMap)
    (nameTail : GoString) (hname : m.Container.Name = slash :: nameTail)
    (hextra : extraFields env m = some extra)
    (hfree : ∀ p ∈ m.Container.Config.Labels,
      isGelfLabel env p.1 = true → p.1.drop 4 ∉ requiredKeys) :
    mapGet extra (ascii "_container_id") = some (.str m.Container.ID) ∧
    mapGet extra (ascii "_container_name") = some (.str nameTail) ∧
    mapGet extra (ascii "_image_id") = some (.str m.Container.Image) ∧
    mapGet extra (ascii "_image_name") = some (.str m.Container.Config.Image) ∧
    mapGet extra (ascii "_command") =
      some (.str (stringsJoin m.Container.Config.Cmd (ascii " "))) ∧
    mapGet extra (ascii "_created") = some (.time m.Container.Created) ∧
    mapGet extra (ascii "_rancher_stack_service") =
      some (.str (labelsGet m.Container.Config.Labels (ascii "io.rancher.stack_service.name"))) ∧
    mapGet extra (ascii "_rancher_host") = some (.str env.hostname) ∧
    mapGet extra (ascii "_logspout_instance") = some (.str (env.osHostname.getD [])) ∧
    mapGet extra (ascii "_logspout_source") = some (.str m.Source) := by
  have key : ∀ k ∈ requiredKeys, mapGet extra k = mapGet (initialExtra env m nameTail) k := by
    intro k hk
    apply extra_get_of_untouched env m extra slash nameTail k hname hextra
    · intro h
      rw [h] at hk
      exact absurd hk (by decide)
    · intro p hp hpass h
      exact hfree p hp hpass (h ▸ hk)
  refine ⟨?_, ?_, ?_, ?_, ?_, ?_, ?_, ?_, ?_, ?_⟩ <;>
    (rw [key _ (by decide)]; rfl)

theorem extra_keys_underscore (env : Env) (m : RouterMessage) (extra : FieldMap)
    (hslow : ∀ s : GoString, (∃ b ∈ s, 128 ≤ b) → env.slowLower s ≠ ascii "gelf_")
    (hextra : extraFields env m = some extra) :
    (∀ key ∈ mapKeys extra, key.head? = some underscore) ∧
    (∀ p ∈ m.Container.Config.Labels, isGelfLabel env p.1 = true →
      (p.1.drop 4).head? = some underscore ∧ 2 ≤ (p.1.drop 4).length) := by
  have hlabels : ∀ p ∈ m.Container.Config.Labels, isGelfLabel env p.1 = true →
      (p.1.drop 4).head? = some underscore ∧ 2 ≤ (p.1.drop 4).length :=
    fun p _ hpass => isGelfLabel_drop env p.1 hslow hpass
  refine ⟨?_, hlabels⟩
  obtain ⟨c, t, _, hx⟩ := extraFields_some env m extra hextra
  have hinit : ∀ key ∈ mapKeys (initialExtra env m t), key.head? = some underscore := by
    have hall : ∀ key ∈ requiredKeys, key.head? = some underscore := by decide
    exact fun key hkey => hall key hkey
  have hloop := labelLoop_keys env m.Container.Config.Labels (initialExtra env m t)
    (fun key => key.head? = some underscore) hinit (fun p hp hpass => (hlabels p hp hpass).1)
  rw [hx]
  cases m.Container.Node with
  | none => exact hloop
  | some sn =>
    intro key hkey
    rcases keys_mapSet _ _ _ _ hkey with h | h
    · rw [h]
      decide
    · exact hloop key h

/-! ## Properties of the specification -/

/-- C1, evaluated at the input on which the code departs from it.  The stream delivers
a record with an empty container name and then `sampleRecord`.  Field extraction
succeeds on `sampleRecord` and yields `sampleMessage`, yet whatever the writer answers,
`Stream` hands the writer nothing: it ends in the panic of `Name[1:]` on the first
record and never reaches the second. -/
theorem stream_aborts_on_empty_name :
    mapRecord sampleEnv sampleRecord = .ok sampleMessage ∧
    ∀ writeFails : Nat → Bool,
      Stream sampleEnv writeFails [emptyNameRecord, sampleRecord] =
        { sent := [], logged := 0, panicked := true } := by
  refine ⟨by decide, fun writeFails => ?_⟩
  have h : mapRecord sampleEnv emptyNameRecord = .panic := by decide
  simp [Stream, streamLoop, h]

/-- C3, evaluated at the input on which the code departs from it: on a record whose
container name is the empty string `getExtraFields` does not return, it panics in the
slice expression `m.Container.Name[1:]`. -/
theorem getExtraFields_panics_on_empty_name :
    emptyNameRecord.Container.Name = [] ∧ getExtraFields sampleEnv emptyNameRecord = .panic := by
  decide

/-- C4, as stated, fails: the metadata GET answers 404 with an error page, the OS
hostname is `node-7`, and the identity is the error page, not the OS hostname. -/
theorem hostname_from_non200_response :
    notFoundResponse.StatusCode ≠ 200 ∧
    initHostname (some notFoundResponse) (some (ascii "node-7")) = ascii "404 page not found" ∧
    initHostname (some notFoundResponse) (some (ascii "node-7")) ≠ ascii "node-7" := by
  decide

/-- C4, amended.  The identity follows the fallback chain for every outcome of the GET
and of the OS lookup, with the status code playing no part: it is the full response body
when the GET returns a response whose body is read without error and is non-empty; it is
the OS hostname when the GET fails, the body cannot be read or the body is empty; and in
those cases it is the empty string when the OS lookup fails as well. -/
theorem initHostname_fallback (get : Option HttpResponse) (osHostname : Option GoString) :
    (∀ res, get = some res → res.readFails = false → res.body ≠ [] →
      initHostname get osHostname = res.body) ∧
    (∀ name, osHostname = some name →
      (get = none ∨ ∃ res, get = some res ∧ (res.readFails = true ∨ res.body = [])) →
      initHostname get osHostname = name) ∧
    (osHostname = none →
      (get = none ∨ ∃ res, get = some res ∧ (res.readFails = true ∨ res.body = [])) →
      initHostname get osHostname = []) := by
  refine ⟨?_, ?_, ?_⟩
  · intro res hget hread hbody
    subst hget
    simp [initHostname, hostnameFromRancherMetadata, hread, hbody]
  · intro name hos hdeg
    subst hos
    rcases hdeg with h | ⟨res, h, hr | hb⟩
    · subst h
      simp [initHostname, hostnameFromRancherMetadata]
    · subst h
      simp [initHostname, hostnameFromRancherMetadata, hr]
    · subst h
      by_cases hr : res.readFails <;>
        simp [initHostname, hostnameFromRancherMetadata, hr, hb]
  · intro hos hdeg
    subst hos
    rcases hdeg with h | ⟨res, h, hr | hb⟩
    · subst h
      simp [initHostname, hostnameFromRancherMetadata]
    · subst h
      simp [initHostname, hostnameFromRancherMetadata, hr]
    · subst h
      by_cases hr : res.readFails <;>
        simp [initHostname, hostnameFromRancherMetadata, hr, hb]

/-- C6.  The `Host` of the message built for a record is the value of the label
`io.rancher.container.name` when the label map holds it with a non-empty value, and the
package-level `hostname` when the label is absent or maps to the empty string. -/
theorem host_from_label_or_hostname (env : Env) (m : RouterMessage) (msg : Message)
    (hmsg : mapRecord env m = .ok msg)
    (hmap : (m.Container.Config.Labels.map Prod.fst).Nodup) :
    (∀ v, (ascii "io.rancher.container.name", v) ∈ m.Container.Config.Labels → v ≠ [] →
      msg.Host = v) ∧
    ((∀ v, (ascii "io.rancher.container.name", v) ∈ m.Container.Config.Labels → v = []) →
      msg.Host = env.hostname) := by
  have hhost := (mapRecord_ok env m msg hmsg).2.2.1
  constructor
  · intro v hv hne
    rw [hhost, labelsGet_of_mem _ _ v hmap hv]
    simp [hne]
  · intro habsent
    rw [hhost, labelsGet_of_forall _ _ habsent]
    simp

/-- C6 on the sample record, whose label `io.rancher.container.name` is `web-1`: the
`Host` is `web-1`. -/
theorem host_from_label_or_hostname_witness :
    mapRecord sampleEnv sampleRecord = .ok sampleMessage ∧
    (sampleRecord.Container.Config.Labels.map Prod.fst).Nodup ∧
    sampleMessage.Host = ascii "web-1" :=
  ⟨by decide, by decide,
    (host_from_label_or_hostname sampleEnv sampleRecord sampleMessage (by decide) (by decide)).1
      (ascii "web-1") (by decide) (by decide)⟩

/-- C7.  The `Level` of the message built for a record is `LOG_ERR` exactly when the
record's source is the string `stderr`, and `LOG_INFO` for every other source, among
them `stdout`, the empty string and `STDERR`. -/
theorem level_err_iff_stderr (env : Env) (m : RouterMessage) (msg : Message)
    (hmsg : mapRecord env m = .ok msg) :
    (msg.Level = LOG_ERR ↔ m.Source = ascii "stderr") ∧
    (m.Source ≠ ascii "stderr" → msg.Level = LOG_INFO) ∧
    (m.Source = ascii "stdout" ∨ m.Source = [] ∨ m.Source = ascii "STDERR" →
      msg.Level = LOG_INFO) := by
  have hlevel := (mapRecord_ok env m msg hmsg).2.2.2.2.2
  have hinfo : m.Source ≠ ascii "stderr" → msg.Level = LOG_INFO := by
    intro hne
    rw [hlevel]
    simp [hne]
  refine ⟨?_, hinfo, ?_⟩
  · constructor
    · intro herr
      by_contra hne
      rw [hinfo hne] at herr
      exact absurd herr (by decide)
    · intro hsrc
      rw [hlevel]
      simp [hsrc]
  · intro hsrc
    apply hinfo
    rcases hsrc with h | h | h <;> rw [h] <;> decide

/-- C7 on the sample record: written to stdout, its message has level `LOG_INFO`. -/
theorem level_err_iff_stderr_witness :
    mapRecord sampleEnv sampleRecord = .ok sampleMessage ∧ sampleMessage.Level = LOG_INFO :=
  ⟨by decide,
    (level_err_iff_stderr sampleEnv sampleRecord sampleMessage (by decide)).2.1 (by decide)⟩

/-- C2, as stated, fails.  With the labels `gelf_=bar`, `gelf_x=a`, `GELF_x=b`, visited
in this order, every key starts with `gelf_` when case is ignored, yet the returned
mapping has no key `_` (the key `gelf_` stripped of four bytes), and it maps `_x` to `b`,
not to the value `a` of the label `gelf_x`. -/
theorem gelf_label_not_passed_through :
    (∀ p ∈ tagLabels, startsWithGelfNoCase p.1) ∧
    (ascii "gelf_", ascii "bar") ∈ tagLabels ∧ (ascii "gelf_").drop 4 = ascii "_" ∧
    returnedField sampleEnv (withLabels tagLabels) (ascii "_") = some none ∧
    (ascii "gelf_x", ascii "a") ∈ tagLabels ∧ (ascii "gelf_x").drop 4 = ascii "_x" ∧
    returnedField sampleEnv (withLabels tagLabels) (ascii "_x") =
      some (some (.str (ascii "b"))) := by
  decide

/-- C2, amended.  On a record for which `getExtraFields` returns a mapping, take a label
`(k, v)` whose key is longer than 5 bytes and starts with `gelf_` when case is ignored.
If every label that passes the test of the loop and agrees with `k` from index 4 on
carries the value `v`, and the key `k[4:]` is not `_swarm_node` on a record with a
cluster node, then the returned object has the member `k[4:]` with the value `v`, key
and value as `json.Marshal` writes strings: a byte that is not part of a valid UTF-8
sequence is replaced by U+FFFD, so that a key and a value that are valid UTF-8 appear
unchanged. -/
theorem gelf_label_passed_through (env : Env) (m : RouterMessage) (raw : RawJSON)
    (k v : GoString) (hraw : getExtraFields env m = .ok raw)
    (hmem : (k, v) ∈ m.Container.Config.Labels) (hlen : 5 < k.length)
    (htag : startsWithGelfNoCase k)
    (hsame : ∀ p ∈ m.Container.Config.Labels,
      isGelfLabel env p.1 = true → p.1.drop 4 = k.drop 4 → p.2 = v)
    (hnode : m.Container.Node = none ∨ k.drop 4 ≠ ascii "_swarm_node") :
    (jsonString (k.drop 4), Value.str (jsonString v)) ∈ raw ∧
    (utf8Valid (k.drop 4) = true → utf8Valid v = true → (k.drop 4, Value.str v) ∈ raw) := by
  obtain ⟨extra, hextra, hiff⟩ := getExtraFields_ok env m raw hraw
  have hget := extra_get_of_gelf_label env m extra k v hextra hmem hlen htag hsame hnode
  have hmember : (jsonString (k.drop 4), Value.str (jsonString v)) ∈ raw :=
    (hiff _).mpr ⟨k.drop 4, .str v, hget, rfl⟩
  refine ⟨hmember, fun hk hv => ?_⟩
  rw [jsonString_of_valid (k.drop 4) hk, jsonString_of_valid v hv] at hmember
  exact hmember

/-- C2 on the sample record: its label `gelf_foo=bar` yields the field `_foo=bar`. -/
theorem gelf_label_passed_through_witness :
    getExtraFields sampleEnv sampleRecord = .ok sampleRaw ∧
    (ascii "gelf_foo", ascii "bar") ∈ sampleRecord.Container.Config.Labels ∧
    (ascii "_foo", Value.str (ascii "bar")) ∈ sampleRaw :=
  ⟨by decide, by decide,
    (gelf_label_passed_through sampleEnv sampleRecord sampleRaw (ascii "gelf_foo") (ascii "bar")
      (by decide) (by decide) (by decide) (by decide) (by decide) (by decide)).2
      (by decide) (by decide)⟩

/-- C8, as stated, fails.  The container is named `/web-1`, has the identifier `4f2c`
and the label `gelf_container_id=spoofed`; the returned mapping holds `_container_id`
mapped to `spoofed`, not to the container identifier. -/
theorem container_id_overwritten_by_label :
    (withLabels spoofLabels).Container.Name = slash :: ascii "web-1" ∧
    (withLabels spoofLabels).Container.ID = ascii "4f2c" ∧
    returnedField sampleEnv (withLabels spoofLabels) (ascii "_container_id") =
      some (some (.str (ascii "spoofed"))) := by
  decide

/-- C8, amended.  On a record whose container name begins with `/`, and none of whose
labels passes the test of the label loop with one of the ten required keys as its key
from index 4 on, the object returned by `getExtraFields` has each of the ten required
keys with its value from the record: `_container_name` with the name without its first
byte, `_command` with the tokens joined by single spaces, `_rancher_stack_service` with
the label `io.rancher.stack_service.name`, `_rancher_host` with the package-level
`hostname`, `_logspout_instance` with the OS hostname (empty when the lookup fails), and
so on.  String values stand as `json.Marshal` writes them: a byte that is not part of a
valid UTF-8 sequence is replaced by U+FFFD. -/
theorem required_fields_from_record (env : Env) (m : RouterMessage) (raw : RawJSON)
    (nameTail : GoString) (hname : m.Container.Name = slash :: nameTail)
    (hraw : getExtraFields env m = .ok raw)
    (hfree : ∀ p ∈ m.Container.Config.Labels,
      isGelfLabel env p.1 = true → p.1.drop 4 ∉ requiredKeys) :
    (ascii "_container_id", Value.str (jsonString m.Container.ID)) ∈ raw ∧
    (ascii "_container_name", Value.str (jsonString nameTail)) ∈ raw ∧
    (ascii "_image_id", Value.str (jsonString m.Container.Image)) ∈ raw ∧
    (ascii "_image_name", Value.str (jsonString m.Container.Config.Image)) ∈ raw ∧
    (ascii "_command",
      Value.str (jsonString (stringsJoin m.Container.Config.Cmd (ascii " ")))) ∈ raw ∧
    (ascii "_created", Value.time m.Container.Created) ∈ raw ∧
    (ascii "_rancher_stack_service",
      Value.str (jsonString
        (labelsGet m.Container.Config.Labels (ascii "io.rancher.stack_service.name")))) ∈ raw ∧
    (ascii "_rancher_host", Value.str (jsonString env.hostname)) ∈ raw ∧
    (ascii "_logspout_instance", Value.str (jsonString (env.osHostname.getD []))) ∈ raw ∧
    (ascii "_logspout_source", Value.str (jsonString m.Source)) ∈ raw := by
  obtain ⟨extra, hextra, hiff⟩ := getExtraFields_ok env m raw hraw
  obtain ⟨h1, h2, h3, h4, h5, h6, h7, h8, h9, h10⟩ :=
    extra_get_required env m extra nameTail hname hextra hfree
  have hmember : ∀ k ∈ requiredKeys, ∀ v, mapGet extra k = some v → (k, jsonValue v) ∈ raw := by
    intro k hk v hv
    refine (hiff _).mpr ⟨k, v, hv, ?_⟩
    rw [jsonString_requiredKeys k hk]
  exact ⟨hmember _ (by decide) _ h1, hmember _ (by decide) _ h2, hmember _ (by decide) _ h3,
    hmember _ (by decide) _ h4, hmember _ (by decide) _ h5, hmember _ (by decide) _ h6,
    hmember _ (by decide) _ h7, hmember _ (by decide) _ h8, hmember _ (by decide) _ h9,
    hmember _ (by decide) _ h10⟩

/-- C8 on the sample record, whose container is named `/web-1`: `_container_name` is
`web-1`. -/
theorem required_fields_from_record_witness :
    sampleRecord.Container.Name = slash :: ascii "web-1" ∧
    getExtraFields sampleEnv sampleRecord = .ok sampleRaw ∧
    jsonString (ascii "web-1") = ascii "web-1" ∧
    (ascii "_container_name", Value.str (jsonString (ascii "web-1"))) ∈ sampleRaw :=
  ⟨by decide, by decide, by decide,
    (required_fields_from_record sampleEnv sampleRecord sampleRaw (ascii "web-1")
      (by decide) (by decide) (by decide)).2.1⟩

/-- C10.  Every key of the mapping that `getExtraFields` returns begins with the byte
`_`; and every label key that passes the test of the label loop has `_` at index 4 and
yields a key of at least 2 bytes.  The standard library enters through `strings.ToLower`
on a string with a byte `≥ 0x80`, whose result is never the ASCII string `gelf_`. -/
theorem extra_keys_begin_with_underscore (env : Env) (m : RouterMessage) (raw : RawJSON)
    (hslow : ∀ s : GoString, (∃ b ∈ s, 128 ≤ b) → env.slowLower s ≠ ascii "gelf_")
    (hraw : getExtraFields env m = .ok raw) :
    (∀ p ∈ raw, p.1.head? = some underscore) ∧
    (∀ p ∈ m.Container.Config.Labels, isGelfLabel env p.1 = true →
      (p.1.drop 4).head? = some underscore ∧ 2 ≤ (p.1.drop 4).length) := by
  obtain ⟨extra, hextra, hiff⟩ := getExtraFields_ok env m raw hraw
  obtain ⟨hkeys, hlabels⟩ := extra_keys_underscore env m extra hslow hextra
  refine ⟨?_, hlabels⟩
  intro p hp
  obtain ⟨k, v, hget, hpkv⟩ := (hiff p).mp hp
  rw [hpkv]
  apply jsonString_head
  apply hkeys k
  rw [← mapGet_ne_none_iff, hget]
  simp

/-- C10 on the sample record: the eleven keys of its mapping begin with `_`. -/
theorem extra_keys_begin_with_underscore_witness :
    (∀ s : GoString, (∃ b ∈ s, 128 ≤ b) → sampleEnv.slowLower s ≠ ascii "gelf_") ∧
    getExtraFields sampleEnv sampleRecord = .ok sampleRaw ∧
    ∀ p ∈ sampleRaw, p.1.head? = some underscore :=
  ⟨sampleEnv_slowLower, by decide,
    (extra_keys_begin_with_underscore sampleEnv sampleRecord sampleRaw sampleEnv_slowLower
      (by decide)).1⟩

/-- C9, as stated, fails.  The labels `gelf_x=a` and `GELF_x=b` both address the key
`_x`.  Mapping the sample record with these labels visited in one order and in the
reverse order, under the same identity and OS hostname, gives two different messages:
`RawExtra` maps `_x` to `b` in the first run and to `a` in the second. -/
theorem mapping_depends_on_label_order :
    clashLabels.reverse.Perm clashLabels ∧
    mapRecord sampleEnv (withLabels clashLabels) ≠
      mapRecord sampleEnv (withLabels clashLabels.reverse) ∧
    returnedField sampleEnv (withLabels clashLabels) (ascii "_x") =
      some (some (.str (ascii "b"))) ∧
    returnedField sampleEnv (withLabels clashLabels.reverse) (ascii "_x") =
      some (some (.str (ascii "a"))) :=
  ⟨List.reverse_perm clashLabels, by decide, by decide, by decide⟩

/-- C9, amended.  Mapping a record under one environment (identity, OS hostname) does
not depend on the order in which the label map is visited, provided that labels which
pass the test of the label loop and agree from index 4 on carry the same value: the two
runs end the same way and, when they build a message, build the same one. -/
theorem mapRecord_label_order_irrelevant (env : Env) (m : RouterMessage)
    (labels2 : List (GoString × GoString)) (hperm : m.Container.Config.Labels.Perm labels2)
    (hmap : (m.Container.Config.Labels.map Prod.fst).Nodup)
    (hclash : ∀ p ∈ m.Container.Config.Labels, ∀ q ∈ m.Container.Config.Labels,
      isGelfLabel env p.1 = true → isGelfLabel env q.1 = true →
      p.1.drop 4 = q.1.drop 4 → p.2 = q.2) :
    mapRecord env (relabel m labels2) = mapRecord env m := by
  unfold mapRecord
  rw [getExtraFields_relabel env m labels2 hperm hmap hclash]
  have hhost : labelsGet (relabel m labels2).Container.Config.Labels
      (ascii "io.rancher.container.name") =
      labelsGet m.Container.Config.Labels (ascii "io.rancher.container.name") :=
    labelsGet_perm _ _ _ hperm hmap
  rw [hhost]
  rfl

/-- C9 on the sample record: visiting its two labels in the reverse order yields the
same message. -/
theorem mapRecord_label_order_irrelevant_witness :
    sampleRecord.Container.Config.Labels.Perm sampleRecord.Container.Config.Labels.reverse ∧
    mapRecord sampleEnv (relabel sampleRecord sampleRecord.Container.Config.Labels.reverse) =
      mapRecord sampleEnv sampleRecord :=
  ⟨(List.reverse_perm _).symm,
    mapRecord_label_order_irrelevant sampleEnv sampleRecord _ (List.reverse_perm _).symm
      (by decide) (by decide)⟩

/-- C5, as stated, fails.  The sample record carries the timestamp
1,500,000,000.123456789 s, so `floor(n / 10^6)` is 1500000000123.  The `TimeUnix` of its
message is the `float64` with the value 6291456000515899 / 2^22, which is not the
rational 1500000000123 / 1000. -/
theorem timeUnix_not_exact_quotient :
    mapRecord sampleEnv sampleRecord = .ok sampleMessage ∧
    sampleRecord.Time.nanos = 1500000000123456789 ∧
    ⌊(sampleRecord.Time.nanos : ℚ) / 1000000⌋ = 1500000000123 ∧
    sampleMessage.TimeUnix.toRat = 6291456000515899 / 4194304 ∧
    sampleMessage.TimeUnix.toRat ≠ 1500000000123 / 1000 := by
  have hval : sampleMessage.TimeUnix.toRat = 6291456000515899 / 4194304 := by
    norm_num [sampleMessage, Float64.toRat, zpow_neg]
  refine ⟨by decide, rfl, ?_, hval, ?_⟩
  · rw [floor_millis]
    decide
  · rw [hval]
    norm_num

/-- C5, amended.  For a record whose timestamp is `n` nanoseconds since the epoch with
`0 ≤ n < 2^63`, the `TimeUnix` of its message is the `float64` quotient of the whole
number of milliseconds `floor(n / 10^6)` by `1000.0`, so it depends on `n` only through
that number.  It is a number `m2 * 2^e2` with a 53-bit mantissa `m2`; no such number is
closer to the rational `floor(n / 10^6) / 1000`; it lies within `2^-20` of that
rational; and it equals that rational exactly when the rational is itself a number of
that form. -/
theorem timeUnix_nearest_to_millis (env : Env) (m : RouterMessage) (msg : Message)
    (hmsg : mapRecord env m = .ok msg) (h0 : 0 ≤ m.Time.nanos) (h63 : m.Time.nanos < 2 ^ 63) :
    msg.TimeUnix = f64Div (f64OfInt ⌊(m.Time.nanos : ℚ) / 1000000⌋) f64Thousand ∧
    |msg.TimeUnix.toRat - (⌊(m.Time.nanos : ℚ) / 1000000⌋ : ℚ) / 1000| ≤ 1 / 2 ^ 20 ∧
    (∀ (m2 e2 : Int), m2.natAbs < 2 ^ 53 →
      |msg.TimeUnix.toRat - (⌊(m.Time.nanos : ℚ) / 1000000⌋ : ℚ) / 1000| ≤
        |(m2 : ℚ) * 2 ^ e2 - (⌊(m.Time.nanos : ℚ) / 1000000⌋ : ℚ) / 1000|) ∧
    (∃ m2 e2 : Int, m2.natAbs < 2 ^ 53 ∧ msg.TimeUnix.toRat = (m2 : ℚ) * 2 ^ e2) ∧
    (msg.TimeUnix.toRat = (⌊(m.Time.nanos : ℚ) / 1000000⌋ : ℚ) / 1000 ↔
      ∃ m2 e2 : Int, m2.natAbs < 2 ^ 53 ∧
        (⌊(m.Time.nanos : ℚ) / 1000000⌋ : ℚ) / 1000 = (m2 : ℚ) * 2 ^ e2) := by
  rw [(mapRecord_ok env m msg hmsg).2.2.2.2.1]
  obtain ⟨hdef, hbound, hnear⟩ := timeUnix_spec m.Time h0 h63
  have hrep := timeUnix_representable m.Time h0 h63
  refine ⟨hdef, hbound, hnear, hrep, ?_, ?_⟩
  · intro heq
    obtain ⟨m2, e2, hm2, hval⟩ := hrep
    exact ⟨m2, e2, hm2, heq ▸ hval⟩
  · rintro ⟨m2, e2, hm2, hq⟩
    have h := hnear m2 e2 hm2
    rw [← hq, sub_self, abs_zero] at h
    exact sub_eq_zero.mp (abs_eq_zero.mp (le_antisymm h (abs_nonneg _)))

/-- C5 on the sample record, stamped 1,500,000,000.123456789 s: its `TimeUnix` lies
within `2^-20` of `floor(n / 10^6) / 1000`. -/
theorem timeUnix_nearest_to_millis_witness :
    mapRecord sampleEnv sampleRecord = .ok sampleMessage ∧
    0 ≤ sampleRecord.Time.nanos ∧ sampleRecord.Time.nanos < 2 ^ 63 ∧
    |sampleMessage.TimeUnix.toRat - (⌊(sampleRecord.Time.nanos : ℚ) / 1000000⌋ : ℚ) / 1000| ≤
      1 / 2 ^ 20 :=
  ⟨by decide, by decide, by decide,
    (timeUnix_nearest_to_millis sampleEnv sampleRecord sampleMessage (by decide) (by decide)
      (by decide)).2.1⟩

end Gelf
